import Mathlib

/- Shallow embedding of the MLIT real-estate MCP HTTP fetch-and-cache layer,
   translated from src/mlit_mcp/cache.py and src/mlit_mcp/http_client.py.

   Modelling conventions:
   * timestamps and TTLs live in an arbitrary linearly ordered additive group
     `τ` (the Python code uses its float clock values only for `+` and order
     comparisons, which any such `τ` models; concrete witnesses use `τ = ℤ`);
   * the injectable zero-argument clock is modelled by passing the clock
     reading explicitly to every operation that calls it;
   * Python dicts / OrderedDicts are association lists ordered oldest-first
     (head = least recently inserted / used, tail = most recent);
   * the filesystem is a finite map from paths to byte lists carried inside
     the file-cache state;
   * the upstream HTTP transport is a scripted list of responses, consumed one
     per upstream GET. -/

/-- Parsed JSON values, the result of Python `response.json()`.  Python `None`
and JSON `null` are the same object; both are `JsonVal.null`. -/
inductive JsonVal where
  | null
  | boolean (b : Bool)
  | num (n : Int)
  | str (s : String)
  | arr (elems : List JsonVal)
  | obj (fields : List (String × JsonVal))

/-- Python `x is None` test on a value produced by JSON parsing. -/
def JsonVal.isNull : JsonVal → Bool
  | .null => true
  | _ => false

/-- Values allowed in a request-parameter map (spec section 6:
`map<string, string|number>`). -/
inductive PVal where
  | str (s : String)
  | int (n : Int)
deriving DecidableEq

/-- Remove every binding of `key` from an association list.  On a list with
no duplicate keys (a Python dict) this is exactly `dict.pop(key, None)`. -/
def eraseKey {β : Type} (key : String) (l : List (String × β)) : List (String × β) :=
  l.filter (fun p => p.1 != key)

/-- Python dict assignment `d[key] = e`: replace the value at `key` in place
if present, otherwise append the new binding at the end. -/
def setAssoc {β : Type} (key : String) (e : β) : List (String × β) → List (String × β)
  | [] => [(key, e)]
  | kv :: t => if kv.1 == key then (key, e) :: t else kv :: setAssoc key e t

/-- `OrderedDict.move_to_end(key)`: move the binding of `key` (which the call
sites guard to be present) to the tail, keeping its value. -/
def moveToEnd {β : Type} (key : String) (l : List (String × β)) : List (String × β) :=
  match List.lookup key l with
  | none => l
  | some v => eraseKey key l ++ [(key, v)]

section CacheModel

variable {τ : Type} [LinearOrderedAddCommGroup τ]

/-- cache.py `_MemoryEntry`. -/
structure MemoryEntry (τ : Type) (α : Type) where
  value : α
  expires_at : τ

/-- cache.py `InMemoryTTLCache` state.  The constructor validates
`maxsize > 0` and `ttl > 0`; theorems carry those facts as hypotheses. -/
structure InMemoryTTLCache (τ : Type) (α : Type) where
  maxsize : Nat
  ttl : τ
  store : List (String × MemoryEntry τ α)

/-- cache.py `InMemoryTTLCache._evict_if_needed`: pop entries from the head
(`popitem(last=False)`) while the store is over capacity.  Popping the head
`length - maxsize` times is exactly dropping that many leading entries. -/
def evictIfNeeded {α : Type} (c : InMemoryTTLCache τ α) : InMemoryTTLCache τ α :=
  { c with store := c.store.drop (c.store.length - c.maxsize) }

/-- cache.py `InMemoryTTLCache.get`, returning the value (if any) and the
updated cache; `now` is the value of the single `self._clock()` call. -/
def mget {α : Type} (c : InMemoryTTLCache τ α) (now : τ) (key : String) :
    Option α × InMemoryTTLCache τ α :=
  match List.lookup key c.store with
  | none => (none, c)
  | some entry =>
    if now ≥ entry.expires_at then
      (none, { c with store := eraseKey key c.store })
    else
      (some entry.value, { c with store := moveToEnd key c.store })

/-- cache.py `InMemoryTTLCache.set`; `now` is the value of `self._clock()`. -/
def mset {α : Type} (c : InMemoryTTLCache τ α) (now : τ) (key : String) (value : α) :
    InMemoryTTLCache τ α :=
  let expires_at := now + c.ttl
  let store1 :=
    if (List.lookup key c.store).isSome then moveToEnd key c.store else c.store
  evictIfNeeded { c with store := setAssoc key ⟨value, expires_at⟩ store1 }

/-- cache.py `InMemoryTTLCache.clear`. -/
def mclear {α : Type} (c : InMemoryTTLCache τ α) : InMemoryTTLCache τ α :=
  { c with store := [] }

/-- cache.py `_FileEntry`. -/
structure FileEntry (τ : Type) where
  path : String
  expires_at : τ

/-- cache.py `BinaryFileCache` state.  `digest` models the SHA-256 hex digest
used for filenames; `disk` models the backing filesystem (path ↦ bytes), so
that externally deleted files are states where a recorded path is absent. -/
structure BinaryFileCache (τ : Type) where
  digest : String → String
  directory : String
  ttl : τ
  entries : List (String × FileEntry τ)
  disk : List (String × List Nat)

/-- Python `path.exists()` against the modelled filesystem. -/
def diskExists (path : String) (disk : List (String × List Nat)) : Bool :=
  (List.lookup path disk).isSome

/-- The `if path.exists(): try: path.unlink() except OSError: pass` block used
by `_evict` and `clear`: best-effort deletion of one file. -/
def bestEffortUnlink (disk : List (String × List Nat)) (path : String) :
    List (String × List Nat) :=
  if diskExists path disk then eraseKey path disk else disk

/-- cache.py `BinaryFileCache.set`: normalize the suffix, write the bytes,
record the index entry, return the path. -/
def fset (c : BinaryFileCache τ) (now : τ) (key : String) (content : List Nat)
    (suffix : String) : String × BinaryFileCache τ :=
  let suffix := if suffix.data.head? = some (Char.ofNat 46) then suffix
    else "." ++ suffix
  let path := c.directory ++ "/" ++ c.digest key ++ suffix
  (path,
    { c with
      disk := setAssoc path content c.disk
      entries := setAssoc key ⟨path, now + c.ttl⟩ c.entries })

/-- cache.py `BinaryFileCache._evict`: drop the index entry and unlink the
file if it still exists. -/
def fevict (c : BinaryFileCache τ) (key : String) (path : String) : BinaryFileCache τ :=
  { c with
    entries := eraseKey key c.entries
    disk := bestEffortUnlink c.disk path }

/-- cache.py `BinaryFileCache.get`; `now` is the value of `self._clock()`. -/
def fget (c : BinaryFileCache τ) (now : τ) (key : String) :
    Option String × BinaryFileCache τ :=
  match List.lookup key c.entries with
  | none => (none, c)
  | some entry =>
    if now ≥ entry.expires_at ∨ ¬ diskExists entry.path c.disk then
      (none, fevict c key entry.path)
    else
      (some entry.path, c)

/-- cache.py `BinaryFileCache.clear`: unlink every recorded file that exists,
then empty the index. -/
def fclear (c : BinaryFileCache τ) : BinaryFileCache τ :=
  { c with
    entries := []
    disk := c.entries.foldl (fun d kv => bestEffortUnlink d kv.2.path) c.disk }

end CacheModel

/-- Literal left brace character (0x7b). -/
def lbrace : Char := Char.ofNat 123

/-- Literal right brace character (0x7d). -/
def rbrace : Char := Char.ofNat 125

/-- Lowercase hexadecimal digit character for `n < 16`. -/
def hexChar (n : Nat) : Char := Char.ofNat (if n < 10 then 48 + n else 87 + n)

/-- Four lowercase hex digits of `n < 65536`, as in Python's `"%04x" % n`. -/
def hex4 (n : Nat) : List Char :=
  [hexChar (n / 4096 % 16), hexChar (n / 256 % 16), hexChar (n / 16 % 16), hexChar (n % 16)]

/-- Single-character escaping of Python `json.dumps` with its default
`ensure_ascii=True`: `"` and `\` get a backslash escape, the five control
characters with short escapes use them, every other character outside
0x20..0x7e becomes `\uXXXX` (one escape for the basic plane, a UTF-16
surrogate pair for code points above 0xFFFF). -/
def escapeChar (ch : Char) : List Char :=
  let n := ch.toNat
  if ch = '"' then ['\\', '"']
  else if ch = '\\' then ['\\', '\\']
  else if n = 8 then ['\\', 'b']
  else if n = 9 then ['\\', 't']
  else if n = 10 then ['\\', 'n']
  else if n = 12 then ['\\', 'f']
  else if n = 13 then ['\\', 'r']
  else if n < 32 then '\\' :: ('u' :: hex4 n)
  else if n ≤ 126 then [ch]
  else if n ≤ 65535 then '\\' :: ('u' :: hex4 n)
  else
    ('\\' :: ('u' :: hex4 (55296 + (n - 65536) / 1024)))
      ++ ('\\' :: ('u' :: hex4 (56320 + (n - 65536) % 1024)))

/-- Escaped JSON rendering of the characters of a string. -/
def escapeString (s : String) : List Char :=
  s.data.foldr (fun c acc => escapeChar c ++ acc) []

/-- `json.dumps` of a Python string: quoted, escaped contents. -/
def quoteString (s : String) : List Char := '"' :: (escapeString s ++ ['"'])

/-- Decimal digits of a natural number (fuel-based so it computes by
reduction); `fuel ≥ n` renders `n` completely. -/
def natDecCharsAux : Nat → Nat → List Char
  | 0, _ => []
  | fuel + 1, n =>
    if n = 0 then [] else natDecCharsAux fuel (n / 10) ++ [Char.ofNat (48 + n % 10)]

/-- Python decimal rendering of a natural number. -/
def natDecChars (n : Nat) : List Char := if n = 0 then ['0'] else natDecCharsAux n n

/-- Python decimal rendering of an integer, as `json.dumps` emits it. -/
def intDecChars : Int → List Char
  | .ofNat n => natDecChars n
  | .negSucc m => '-' :: natDecChars (m + 1)

/-- Stable insertion of a key/value pair into a list sorted by key.  With the
duplicate-free keys of a Python dict this realizes `sorted(d.items())`. -/
def insertByKey {β : Type} (x : String × β) : List (String × β) → List (String × β)
  | [] => [x]
  | y :: t => if x.1 < y.1 then x :: y :: t else y :: insertByKey x t

/-- Sort an association list by key (insertion sort, stable). -/
def sortByKey {β : Type} (l : List (String × β)) : List (String × β) :=
  l.foldr insertByKey []

/-- `json.dumps` of a parameter value. -/
def dumpPVal : PVal → List Char
  | .str s => quoteString s
  | .int n => intDecChars n

/-- One `"key":value` item with the `(",", ":")` separators. -/
def dumpPair (kv : String × PVal) : List Char :=
  quoteString kv.1 ++ (':' :: dumpPVal kv.2)

/-- Comma-joined object items. -/
def dumpPairs : List (String × PVal) → List Char
  | [] => []
  | [kv] => dumpPair kv
  | kv :: rest => dumpPair kv ++ (',' :: dumpPairs rest)

/-- `json.dumps` of the params dict with `sort_keys=True`. -/
def dumpParams (l : List (String × PVal)) : List Char :=
  lbrace :: (dumpPairs (sortByKey l) ++ [rbrace])

/-- http_client.py `MLITHttpClient._build_cache_key`: `json.dumps` of
`{"endpoint": ..., "params": params or {}, "format": ...}` with
`sort_keys=True` and `separators=(",", ":")`.  The three top-level keys are
emitted in their sorted order, `"endpoint" < "format" < "params"`. -/
def build_cache_key (endpoint : String) (params : Option (List (String × PVal)))
    (response_format : String) : String :=
  String.mk
    (lbrace :: (quoteString "endpoint" ++ (':' :: quoteString endpoint)
      ++ (',' :: (quoteString "format" ++ (':' :: quoteString response_format)))
      ++ (',' :: (quoteString "params" ++ (':' :: dumpParams (params.getD []))))
      ++ [rbrace]))

/-- Python `str.lower()` restricted to ASCII, which covers every response
format the client handles. -/
def toLowerAscii (s : String) : String := String.mk (s.data.map Char.toLower)

/-- http_client.py `RETRYABLE_STATUS_CODES = {408, 409, 425, 429} |
set(range(500, 600))`. -/
def retryableStatus (s : Nat) : Bool :=
  decide (s = 408 ∨ s = 409 ∨ s = 425 ∨ s = 429 ∨ (500 ≤ s ∧ s < 600))

/-- httpx `response.is_success` (a 2xx status), the condition under which
`raise_for_status` does not raise. -/
def is2xx (s : Nat) : Bool := decide (200 ≤ s ∧ s < 300)

/-- An upstream HTTP response: its status, the value `response.json()` parses
to, and the raw `response.content` bytes. -/
structure Response where
  status : Nat
  jsonBody : JsonVal
  content : List Nat

/-- Errors that `_send_with_retry` can raise: `RetryableHTTPStatusError`
after exhausting the retry budget, `httpx.HTTPStatusError` from
`raise_for_status` on a non-retryable non-2xx status, and the modelling
artifact of the scripted transport running out of responses. -/
inductive UpstreamError where
  | retryableStatus (status : Nat)
  | httpStatus (status : Nat)
  | noResponse
deriving DecidableEq

/-- The tenacity attempt loop of `_send_with_retry`, over a scripted
transport.  `remaining` is the number of further attempts still allowed after
the current one.  Each attempt issues one upstream GET; a retryable status
raises `RetryableHTTPStatusError` (retried while attempts remain, re-raised
once exhausted), a 2xx returns the response, and any other status raises
immediately via `raise_for_status`.  Returns the outcome, the number of
upstream calls issued, and the unconsumed script. -/
def sendLoop (remaining : Nat) : List Response →
    Except UpstreamError Response × Nat × List Response
  | [] => (.error .noResponse, 0, [])
  | r :: rest =>
    if retryableStatus r.status then
      match remaining with
      | 0 => (.error (.retryableStatus r.status), 1, rest)
      | k + 1 =>
        let out := sendLoop k rest
        (out.1, out.2.1 + 1, out.2.2)
    else if is2xx r.status then (.ok r, 1, rest)
    else (.error (.httpStatus r.status), 1, rest)

/-- http_client.py `MLITHttpClient._send_with_retry`:
`stop_after_attempt(max_attempts)` allows `max_attempts` attempts in total
(at least one: tenacity always runs the first attempt), i.e. `max_attempts - 1`
retries after the first. -/
def sendWithRetry (max_attempts : Nat) (rs : List Response) :
    Except UpstreamError Response × Nat × List Response :=
  sendLoop (max_attempts - 1) rs

/-- The four statistics counters kept in `MLITHttpClient._stats`. -/
structure Stats where
  total_requests : Nat := 0
  cache_hits : Nat := 0
  cache_misses : Nat := 0
  api_errors : Nat := 0
deriving DecidableEq

/-- http_client.py `FetchResult`.  The `data` field holds the Python value of
the dataclass field, whose `None` default is `JsonVal.null`. -/
structure FetchResult where
  data : JsonVal := .null
  file_path : Option String := none
  from_cache : Bool := false

/-- http_client.py `MLITHttpClient` mutable state. -/
structure MLITHttpClient (τ : Type) where
  json_cache : InMemoryTTLCache τ JsonVal
  file_cache : BinaryFileCache τ
  max_attempts : Nat := 4
  stats : Stats := {}

/-- http_client.py `MLITHttpClient._suffix_for_format`. -/
def suffix_for_format (response_format : String) : String :=
  if response_format = "geojson" then ".geojson"
  else if response_format = "mvt" then ".mvt"
  else if response_format = "pbf" then ".pbf"
  else ".bin"

section ClientModel

variable {τ : Type} [LinearOrderedAddCommGroup τ]

/-- The tail of http_client.py `MLITHttpClient.fetch` from the
`cache_misses` increment onwards: issue the upstream call with retry,
increment `api_errors` and re-raise on failure, otherwise store the fresh
value in the tier matching the normalized format and return it with
`from_cache=False`. -/
def fetchMiss (c : MLITHttpClient τ) (now : τ) (nf cache_key : String)
    (responses : List Response) :
    Except UpstreamError FetchResult × MLITHttpClient τ × Nat × List Response :=
  let c := { c with stats := { c.stats with cache_misses := c.stats.cache_misses + 1 } }
  match sendWithRetry c.max_attempts responses with
  | (.error e, calls, rest) =>
    (.error e,
      { c with stats := { c.stats with api_errors := c.stats.api_errors + 1 } },
      calls, rest)
  | (.ok resp, calls, rest) =>
    if nf = "json" then
      (.ok { data := resp.jsonBody, from_cache := false },
        { c with json_cache := mset c.json_cache now cache_key resp.jsonBody },
        calls, rest)
    else
      let pfc := fset c.file_cache now cache_key resp.content (suffix_for_format nf)
      (.ok { file_path := some pfc.1, from_cache := false },
        { c with file_cache := pfc.2 }, calls, rest)

/-- http_client.py `MLITHttpClient.fetch`.  Returns the outcome (result or
raised error), the client state after the call, the number of upstream HTTP
calls issued during this invocation, and the unconsumed transport script.
The cache probe is skipped when `force_refresh` is set; a JSON cache probe
compares the returned Python value against `None` (`cached is not None`), so
a stored `null` is indistinguishable from a miss there. -/
def fetch (c : MLITHttpClient τ) (now : τ) (endpoint : String)
    (params : Option (List (String × PVal))) (response_format : String)
    (force_refresh : Bool) (responses : List Response) :
    Except UpstreamError FetchResult × MLITHttpClient τ × Nat × List Response :=
  let cache_key := build_cache_key endpoint params response_format
  let nf := toLowerAscii response_format
  let c := { c with stats := { c.stats with total_requests := c.stats.total_requests + 1 } }
  if force_refresh then
    fetchMiss c now nf cache_key responses
  else if nf = "json" then
    let rjc := mget c.json_cache now cache_key
    let c := { c with json_cache := rjc.2 }
    let cached := rjc.1.getD JsonVal.null
    if cached.isNull then
      fetchMiss c now nf cache_key responses
    else
      (.ok { data := cached, from_cache := true },
        { c with stats := { c.stats with cache_hits := c.stats.cache_hits + 1 } },
        0, responses)
  else
    let rfc := fget c.file_cache now cache_key
    let c := { c with file_cache := rfc.2 }
    match rfc.1 with
    | some path =>
      (.ok { file_path := some path, from_cache := true },
        { c with stats := { c.stats with cache_hits := c.stats.cache_hits + 1 } },
        0, responses)
    | none => fetchMiss c now nf cache_key responses

/-- http_client.py `MLITHttpClient.clear_cache`: clear both cache tiers and
replace the stats counter with a fresh one. -/
def clear_cache (c : MLITHttpClient τ) : MLITHttpClient τ :=
  { c with
    json_cache := mclear c.json_cache
    file_cache := fclear c.file_cache
    stats := {} }

/-- Arguments of one `fetch` call in a scripted sequence. -/
structure FetchRequest (τ : Type) where
  now : τ
  endpoint : String
  params : Option (List (String × PVal))
  response_format : String
  responses : List Response

/-- Run a sequence of non-force-refresh `fetch` calls, carrying the client
state across calls (a raised error propagates to that caller but leaves the
mutated client in place, as in Python). -/
def runFetches (c : MLITHttpClient τ) : List (FetchRequest τ) → MLITHttpClient τ
  | [] => c
  | q :: qs =>
    runFetches (fetch c q.now q.endpoint q.params q.response_format false q.responses).2.1 qs

end ClientModel

/- ### Association-list helper lemmas -/

theorem lookup_cons_self {β : Type} (a : String) (b : β) (t : List (String × β)) :
    List.lookup a ((a, b) :: t) = some b := by
  simp [List.lookup]

theorem lookup_cons_ne {β : Type} {k a : String} (h : k ≠ a) (b : β)
    (t : List (String × β)) : List.lookup k ((a, b) :: t) = List.lookup k t := by
  have hb : (k == a) = false := beq_false_of_ne h
  simp [List.lookup, hb]

theorem eraseKey_cons_self {β : Type} (key : String) (b : β) (t : List (String × β)) :
    eraseKey key ((key, b) :: t) = eraseKey key t := by
  simp [eraseKey, List.filter_cons]

theorem eraseKey_cons_ne {β : Type} {a key : String} (h : a ≠ key) (b : β)
    (t : List (String × β)) :
    eraseKey key ((a, b) :: t) = (a, b) :: eraseKey key t := by
  simp [eraseKey, List.filter_cons, h]

theorem eraseKey_forall_ne {β : Type} (key : String) (l : List (String × β)) :
    ∀ kv ∈ eraseKey key l, kv.1 ≠ key := by
  intro kv hkv
  have h := List.of_mem_filter hkv
  simpa using h

theorem lookup_eq_none_of_forall_ne {β : Type} {key : String} {l : List (String × β)}
    (h : ∀ kv ∈ l, kv.1 ≠ key) : List.lookup key l = none := by
  induction l with
  | nil => rfl
  | cons kv t ih =>
    have h1 : key ≠ kv.1 := fun e => h kv (by simp) e.symm
    rw [show kv = (kv.1, kv.2) from rfl, lookup_cons_ne h1]
    exact ih fun x hx => h x (by simp [hx])

theorem forall_ne_of_lookup_eq_none {β : Type} {key : String} {l : List (String × β)}
    (h : List.lookup key l = none) : ∀ kv ∈ l, kv.1 ≠ key := by
  induction l with
  | nil => simp
  | cons kv t ih =>
    intro x hx
    by_cases hk : key = kv.1
    · rw [show kv = (kv.1, kv.2) from rfl, ← hk, lookup_cons_self] at h
      exact absurd h (by simp)
    · rw [show kv = (kv.1, kv.2) from rfl, lookup_cons_ne hk] at h
      rcases List.mem_cons.mp hx with rfl | hx'
      · exact fun e => hk e.symm
      · exact ih h x hx'

theorem lookup_append_of_forall_ne {β : Type} {key : String} {l₁ : List (String × β)}
    (l₂ : List (String × β)) (h : ∀ kv ∈ l₁, kv.1 ≠ key) :
    List.lookup key (l₁ ++ l₂) = List.lookup key l₂ := by
  induction l₁ with
  | nil => rfl
  | cons kv t ih =>
    have h1 : key ≠ kv.1 := fun e => h kv (by simp) e.symm
    rw [List.cons_append, show kv = (kv.1, kv.2) from rfl, lookup_cons_ne h1]
    exact ih fun x hx => h x (by simp [hx])

theorem lookup_eraseKey_self {β : Type} (key : String) (l : List (String × β)) :
    List.lookup key (eraseKey key l) = none :=
  lookup_eq_none_of_forall_ne (eraseKey_forall_ne key l)

theorem lookup_eraseKey_ne {β : Type} {k key : String} (h : k ≠ key)
    (l : List (String × β)) : List.lookup k (eraseKey key l) = List.lookup k l := by
  induction l with
  | nil => rfl
  | cons kv t ih =>
    rcases kv with ⟨a, b⟩
    by_cases hk : a = key
    · subst hk
      rw [eraseKey_cons_self, ih, lookup_cons_ne h]
    · rw [eraseKey_cons_ne hk]
      by_cases hka : k = a
      · subst hka
        rw [lookup_cons_self, lookup_cons_self]
      · rw [lookup_cons_ne hka, lookup_cons_ne hka, ih]

theorem setAssoc_append_of_forall_ne {β : Type} {key : String} {l₁ : List (String × β)}
    (e : β) (m : List (String × β)) (h : ∀ kv ∈ l₁, kv.1 ≠ key) :
    setAssoc key e (l₁ ++ m) = l₁ ++ setAssoc key e m := by
  induction l₁ with
  | nil => rfl
  | cons kv t ih =>
    have h1 : (kv.1 == key) = false := beq_false_of_ne (h kv (by simp))
    rw [List.cons_append]
    simp only [setAssoc, h1]
    rw [ih fun x hx => h x (by simp [hx])]
    rfl

theorem setAssoc_of_forall_ne {β : Type} {key : String} {l : List (String × β)}
    (e : β) (h : ∀ kv ∈ l, kv.1 ≠ key) : setAssoc key e l = l ++ [(key, e)] := by
  have h2 := @setAssoc_append_of_forall_ne β key l e [] h
  simpa using h2


/- ### Memory-cache structure lemmas -/

/-- The store contents `InMemoryTTLCache.set` builds before capacity
trimming, minus the fresh binding it appends at the tail: the previous
binding of the key (if any) is gone, everything else keeps its order. -/
def msetPre {τ α : Type} (c : InMemoryTTLCache τ α) (key : String) :
    List (String × MemoryEntry τ α) :=
  if (List.lookup key c.store).isSome then eraseKey key c.store else c.store

theorem msetPre_forall_ne {τ α : Type} (c : InMemoryTTLCache τ α) (key : String) :
    ∀ kv ∈ msetPre c key, kv.1 ≠ key := by
  intro kv hkv
  unfold msetPre at hkv
  cases h : List.lookup key c.store with
  | none =>
    rw [h] at hkv
    simp at hkv
    exact forall_ne_of_lookup_eq_none h kv hkv
  | some v =>
    rw [h] at hkv
    simp at hkv
    exact eraseKey_forall_ne key c.store kv hkv

theorem mget_eq_of_lookup_none {τ : Type} [LinearOrderedAddCommGroup τ] {α : Type}
    {c : InMemoryTTLCache τ α} {key : String} (now : τ)
    (h : List.lookup key c.store = none) : mget c now key = (none, c) := by
  unfold mget
  rw [h]

theorem mget_eq_of_lookup_some {τ : Type} [LinearOrderedAddCommGroup τ] {α : Type}
    {c : InMemoryTTLCache τ α} {key : String} {entry : MemoryEntry τ α} (now : τ)
    (h : List.lookup key c.store = some entry) :
    mget c now key =
      if now ≥ entry.expires_at then (none, { c with store := eraseKey key c.store })
      else (some entry.value, { c with store := moveToEnd key c.store }) := by
  unfold mget
  rw [h]

theorem mset_store_eq {τ : Type} [LinearOrderedAddCommGroup τ] {α : Type}
    (c : InMemoryTTLCache τ α) (now : τ) (key : String) (v : α) :
    (mset c now key v).store =
      (msetPre c key ++ [(key, (⟨v, now + c.ttl⟩ : MemoryEntry τ α))]).drop
        ((msetPre c key).length + 1 - c.maxsize) := by
  unfold mset evictIfNeeded msetPre
  cases h : List.lookup key c.store with
  | none =>
    simp only [h, Option.isSome_none, Bool.false_eq_true, if_false]
    rw [setAssoc_of_forall_ne _ (forall_ne_of_lookup_eq_none h)]
    simp
  | some w =>
    simp only [h, Option.isSome_some, if_true]
    have hm : moveToEnd key c.store = eraseKey key c.store ++ [(key, w)] := by
      unfold moveToEnd
      rw [h]
    rw [hm, setAssoc_append_of_forall_ne _ _ (eraseKey_forall_ne key c.store)]
    have hs : setAssoc key (⟨v, now + c.ttl⟩ : MemoryEntry τ α) [(key, w)]
        = [(key, ⟨v, now + c.ttl⟩)] := by
      simp [setAssoc]
    rw [hs]
    simp

theorem mset_maxsize {τ : Type} [LinearOrderedAddCommGroup τ] {α : Type}
    (c : InMemoryTTLCache τ α) (now : τ) (key : String) (v : α) :
    (mset c now key v).maxsize = c.maxsize := by
  unfold mset evictIfNeeded
  cases h : (List.lookup key c.store).isSome <;> simp [h]

theorem mset_ttl {τ : Type} [LinearOrderedAddCommGroup τ] {α : Type}
    (c : InMemoryTTLCache τ α) (now : τ) (key : String) (v : α) :
    (mset c now key v).ttl = c.ttl := by
  unfold mset evictIfNeeded
  cases h : (List.lookup key c.store).isSome <;> simp [h]

theorem mset_lookup_self {τ : Type} [LinearOrderedAddCommGroup τ] {α : Type}
    (c : InMemoryTTLCache τ α) (now : τ) (key : String) (v : α)
    (hmax : 1 ≤ c.maxsize) :
    List.lookup key (mset c now key v).store
      = some (⟨v, now + c.ttl⟩ : MemoryEntry τ α) := by
  rw [mset_store_eq]
  have hk : (msetPre c key).length + 1 - c.maxsize ≤ (msetPre c key).length := by
    omega
  rw [List.drop_append_of_le_length hk]
  rw [lookup_append_of_forall_ne _ fun kv hkv =>
    msetPre_forall_ne c key kv (List.mem_of_mem_drop hkv)]
  exact lookup_cons_self key _ []


/-- C3: for the in-memory TTL cache with positive ttl and capacity, an entry
set at clock time `t0` is returned by `get` while `clock() < t0 + ttl`, and
`get` returns absent — and evicts the entry — once `clock() ≥ t0 + ttl`; the
expiry comparison is `≥`, so an entry is expired exactly at its expiry
timestamp. -/
theorem mem_cache_ttl_expiry {τ : Type} [LinearOrderedAddCommGroup τ] {α : Type}
    (c : InMemoryTTLCache τ α) (key : String) (v : α) (t0 now : τ)
    (httl : 0 < c.ttl) (hmax : 1 ≤ c.maxsize) :
    (now < t0 + c.ttl → (mget (mset c t0 key v) now key).1 = some v) ∧
    (t0 + c.ttl ≤ now →
      (mget (mset c t0 key v) now key).1 = none ∧
      List.lookup key ((mget (mset c t0 key v) now key).2).store = none) := by
  have hmax' : 1 ≤ (mset c t0 key v).maxsize := by rw [mset_maxsize]; exact hmax
  have hlook := mset_lookup_self c t0 key v hmax
  constructor
  · intro hlt
    rw [mget_eq_of_lookup_some now hlook]
    have hnot : ¬ now ≥ t0 + c.ttl := not_le.mpr hlt
    simp [hnot]
  · intro hge
    rw [mget_eq_of_lookup_some now hlook]
    have hyes : now ≥ t0 + c.ttl := hge
    simp [hyes, lookup_eraseKey_self]

/-- Witness for C3 at a concrete cache (maxsize 4, ttl 5, `τ = ℤ`): the
entry set at time 0 is gone at time 6. -/
theorem mem_cache_ttl_expiry_witness :
    (0 : ℤ) < 5 ∧ 1 ≤ 4 ∧
      (mget (mset (⟨4, 5, []⟩ : InMemoryTTLCache ℤ Nat) 0 "foo" 7) 6 "foo").1 = none :=
  ⟨by decide, by decide,
    ((mem_cache_ttl_expiry (⟨4, 5, []⟩ : InMemoryTTLCache ℤ Nat) "foo" 7 0 6
      (by decide) (by decide)).2 (by decide)).1⟩

/- ### LRU eviction lemmas -/

/-- Insert a list of key/value pairs in order, all at clock time `t`. -/
def msetMany {τ : Type} [LinearOrderedAddCommGroup τ] {α : Type}
    (c : InMemoryTTLCache τ α) (t : τ) (l : List (String × α)) :
    InMemoryTTLCache τ α :=
  l.foldl (fun c kv => mset c t kv.1 kv.2) c

theorem msetMany_maxsize {τ : Type} [LinearOrderedAddCommGroup τ] {α : Type}
    (t : τ) (l : List (String × α)) :
    ∀ c : InMemoryTTLCache τ α, (msetMany c t l).maxsize = c.maxsize := by
  induction l with
  | nil => intro c; rfl
  | cons kv rest ih =>
    intro c
    show (msetMany (mset c t kv.1 kv.2) t rest).maxsize = c.maxsize
    rw [ih, mset_maxsize]

theorem msetMany_ttl {τ : Type} [LinearOrderedAddCommGroup τ] {α : Type}
    (t : τ) (l : List (String × α)) :
    ∀ c : InMemoryTTLCache τ α, (msetMany c t l).ttl = c.ttl := by
  induction l with
  | nil => intro c; rfl
  | cons kv rest ih =>
    intro c
    show (msetMany (mset c t kv.1 kv.2) t rest).ttl = c.ttl
    rw [ih, mset_ttl]

/-- The entry a time-`t` insertion of `kv` creates, given the cache ttl. -/
def entryOf {τ α : Type} (t ttl : τ) [Add τ] (kv : String × α) :
    String × MemoryEntry τ α :=
  (kv.1, ⟨kv.2, t + ttl⟩)

theorem lookup_map_entryOf {τ α : Type} [Add τ] (t ttl : τ)
    {l : List (String × α)} (hn : (l.map Prod.fst).Nodup) {k : String} {a : α}
    (h : (k, a) ∈ l) :
    List.lookup k (l.map (entryOf t ttl)) = some ⟨a, t + ttl⟩ := by
  induction l with
  | nil => cases h
  | cons kv rest ih =>
    rcases List.mem_cons.mp h with heq | hmem
    · rw [← heq, List.map_cons]
      exact lookup_cons_self k _ _
    · have hk : k ≠ kv.1 := by
        intro he
        have hk1 : kv.1 ∈ rest.map Prod.fst := by
          rw [← he]
          exact List.mem_map_of_mem Prod.fst hmem
        rw [List.map_cons] at hn
        exact (List.nodup_cons.mp hn).1 hk1
      rw [List.map_cons]
      rw [show entryOf t ttl kv = (kv.1, ⟨kv.2, t + ttl⟩) from rfl]
      rw [lookup_cons_ne hk]
      exact ih (List.nodup_cons.mp (List.map_cons Prod.fst kv rest ▸ hn)).2 hmem

theorem lookup_map_entryOf_none {τ α : Type} [Add τ] (t ttl : τ)
    {l : List (String × α)} {k : String} (h : k ∉ l.map Prod.fst) :
    List.lookup k (l.map (entryOf t ttl)) = none := by
  apply lookup_eq_none_of_forall_ne
  intro kv hkv
  rcases List.mem_map.mp hkv with ⟨kv₀, hkv₀, rfl⟩
  intro he
  exact h (he ▸ List.mem_map_of_mem Prod.fst hkv₀)

/-- Sliding-window characterization of repeated insertion of fresh keys into
an initially empty cache: the store is the suffix of the inserted entries
that fits within `maxsize`. -/
theorem msetMany_store_eq {τ : Type} [LinearOrderedAddCommGroup τ] {α : Type}
    (t : τ) (l : List (String × α)) :
    ∀ c : InMemoryTTLCache τ α, c.store = [] → (l.map Prod.fst).Nodup →
      (msetMany c t l).store
        = (l.map (entryOf t c.ttl)).drop (l.length - c.maxsize) := by
  induction l using List.reverseRecOn with
  | nil =>
    intro c hc _
    simpa [msetMany] using hc
  | append_singleton l kv ih =>
    intro c hc hn
    have hnl : (l.map Prod.fst).Nodup := by
      rw [List.map_append] at hn
      exact (List.nodup_append.mp hn).1
    have hfresh : kv.1 ∉ l.map Prod.fst := by
      rw [List.map_append] at hn
      have h2 := (List.nodup_append.mp hn).2.2
      intro hmem
      exact h2 hmem (by simp)
    have hstep : msetMany c t (l ++ [kv]) = mset (msetMany c t l) t kv.1 kv.2 := by
      unfold msetMany
      rw [List.foldl_append]
      rfl
    rw [hstep]
    have hW := ih c hc hnl
    have hmaxs := msetMany_maxsize t l c
    have httls := msetMany_ttl t l c
    set M := c.maxsize with hM
    set W := (l.map (entryOf t c.ttl)).drop (l.length - M) with hWdef
    have hWkeys : ∀ p ∈ W, p.1 ≠ kv.1 := by
      intro p hp
      have hp' : p ∈ l.map (entryOf t c.ttl) := List.mem_of_mem_drop hp
      rcases List.mem_map.mp hp' with ⟨kv₀, hkv₀, rfl⟩
      intro he
      exact hfresh (he ▸ List.mem_map_of_mem Prod.fst hkv₀)
    have hlookW : List.lookup kv.1 (msetMany c t l).store = none := by
      rw [hW]
      exact lookup_eq_none_of_forall_ne hWkeys
    have hpre : msetPre (msetMany c t l) kv.1 = W := by
      unfold msetPre
      rw [hlookW, hW]
      rfl
    rw [mset_store_eq, hpre, hmaxs, httls]
    have hlen1 : l.length - M ≤ l.length := Nat.sub_le _ _
    have hWlen : W.length = l.length - (l.length - M) := by
      rw [hWdef, List.length_drop, List.length_map]
    have hx : (kv.1, (⟨kv.2, t + c.ttl⟩ : MemoryEntry τ α)) = entryOf t c.ttl kv := rfl
    rw [hx]
    have happ : W ++ [entryOf t c.ttl kv]
        = (l.map (entryOf t c.ttl) ++ [entryOf t c.ttl kv]).drop (l.length - M) := by
      rw [hWdef, List.drop_append_of_le_length (by rw [List.length_map]; exact hlen1)]
    rw [happ, List.drop_drop]
    have harith : l.length - M + (W.length + 1 - M) = l.length + 1 - M := by
      omega
    rw [harith, List.map_append]
    simp [List.length_append]

theorem lookup_some_mem {β : Type} {key : String} {l : List (String × β)} {v : β}
    (h : List.lookup key l = some v) : (key, v) ∈ l := by
  induction l with
  | nil => cases h
  | cons kv t ih =>
    rcases kv with ⟨a, b⟩
    by_cases hk : key = a
    · subst hk
      rw [lookup_cons_self] at h
      injection h with h
      subst h
      exact List.mem_cons_self _ _
    · rw [lookup_cons_ne hk] at h
      exact List.mem_cons_of_mem _ (ih h)

theorem eraseKey_length_lt {β : Type} {key : String} {l : List (String × β)} {v : β}
    (h : (key, v) ∈ l) : (eraseKey key l).length < l.length := by
  induction l with
  | nil => cases h
  | cons kv t ih =>
    rcases kv with ⟨a, b⟩
    by_cases hk : a = key
    · rw [hk, eraseKey_cons_self]
      have hle : (eraseKey key t).length ≤ t.length := List.length_filter_le _ t
      simp only [List.length_cons]
      omega
    · rw [eraseKey_cons_ne hk]
      have hmem : (key, v) ∈ t := by
        rcases List.mem_cons.mp h with heq | hm
        · exfalso
          injection heq with h1 h2
          exact hk h1.symm
        · exact hm
      have := ih hmem
      simp only [List.length_cons]
      omega

/-- A key whose binding sits at the tail of the store (most-recently-used)
survives the eviction caused by inserting one fresh key, as long as the cache
was within capacity and `maxsize ≥ 2`. -/
theorem lru_survive {τ : Type} [LinearOrderedAddCommGroup τ] {α : Type}
    (c1 : InMemoryTTLCache τ α) (l : List (String × MemoryEntry τ α))
    (key : String) (x : MemoryEntry τ α)
    (hstore : c1.store = l ++ [(key, x)]) (hne : ∀ kv ∈ l, kv.1 ≠ key)
    (hlen : c1.store.length ≤ c1.maxsize) (hmax : 2 ≤ c1.maxsize)
    (k' : String) (hk' : List.lookup k' c1.store = none) (t2 : τ) (v' : α) :
    List.lookup key (mset c1 t2 k' v').store = some x := by
  have hpre : msetPre c1 k' = c1.store := by
    unfold msetPre
    rw [hk']
    rfl
  rw [mset_store_eq, hpre, hstore]
  have hlen' : l.length + 1 ≤ c1.maxsize := by
    rw [hstore] at hlen
    simpa [List.length_append] using hlen
  have hd : (l ++ [(key, x)]).length + 1 - c1.maxsize ≤ l.length := by
    simp only [List.length_append, List.length_cons, List.length_nil]
    omega
  rw [List.append_assoc, List.drop_append_of_le_length hd]
  rw [lookup_append_of_forall_ne _ fun kv hkv => hne kv (List.mem_of_mem_drop hkv)]
  exact lookup_cons_self key x _

theorem mset_length_le {τ : Type} [LinearOrderedAddCommGroup τ] {α : Type}
    (c : InMemoryTTLCache τ α) (t : τ) (key : String) (v : α) :
    (mset c t key v).store.length ≤ c.maxsize := by
  rw [mset_store_eq, List.length_drop]
  simp only [List.length_append, List.length_cons, List.length_nil]
  omega

/-- Counterexample to C4 as stated: with `maxSize = 1`, key `"a"` is touched
by a successful `get` (and is therefore the most-recently-used entry), yet
the very next eviction — caused by inserting the fresh key `"b"` — evicts
`"a"`. -/
theorem lru_touch_protection_counterexample :
    (mget (mset (⟨1, 10, []⟩ : InMemoryTTLCache ℤ Nat) 0 "a" 1) 0 "a").1 = some 1 ∧
    (mget (mset (mget (mset (⟨1, 10, []⟩ : InMemoryTTLCache ℤ Nat) 0 "a" 1) 0 "a").2
      0 "b" 2) 0 "a").1 = none := by
  constructor
  · rfl
  · rfl

/-- C4 (amended): starting from an empty in-memory cache, inserting
`maxSize + 1` distinct keys evicts exactly the first (least-recently-touched)
key and no other; touching an existing key via a successful `get` or via
`set` moves it to the most-recently-used position, and — provided
`maxSize ≥ 2` — protects it from the next eviction (with `maxSize = 1` the
touched key is itself the least-recently-used entry and is evicted, see the
counterexample); after every `set` the entry count is at most `maxSize`. -/
theorem lru_eviction_amended {τ : Type} [LinearOrderedAddCommGroup τ] {α : Type} :
    (∀ (c : InMemoryTTLCache τ α) (t : τ) (l : List (String × α)),
      c.store = [] → 1 ≤ c.maxsize → l.length = c.maxsize + 1 →
      (l.map Prod.fst).Nodup →
      (msetMany c t l).store.length = c.maxsize ∧
      (∀ kv₀, l.head? = some kv₀ →
        List.lookup kv₀.1 (msetMany c t l).store = none) ∧
      (∀ kv ∈ l.tail,
        List.lookup kv.1 (msetMany c t l).store
          = some (⟨kv.2, t + c.ttl⟩ : MemoryEntry τ α))) ∧
    (∀ (c : InMemoryTTLCache τ α) (now : τ) (key : String) (entry : MemoryEntry τ α),
      List.lookup key c.store = some entry → ¬ now ≥ entry.expires_at →
      c.store.length ≤ c.maxsize → 2 ≤ c.maxsize →
      ∀ (k' : String) (t2 : τ) (v' : α),
        List.lookup k' (mget c now key).2.store = none →
        (mget c now key).1 = some entry.value ∧
        (mget c now key).2.store.getLast? = some (key, entry) ∧
        List.lookup key (mset (mget c now key).2 t2 k' v').store = some entry) ∧
    (∀ (c : InMemoryTTLCache τ α) (t1 : τ) (key : String) (v : α),
      c.store.length ≤ c.maxsize → 2 ≤ c.maxsize →
      ∀ (k' : String) (t2 : τ) (v' : α),
        List.lookup k' (mset c t1 key v).store = none →
        (mset c t1 key v).store.getLast?
          = some (key, (⟨v, t1 + c.ttl⟩ : MemoryEntry τ α)) ∧
        List.lookup key (mset (mset c t1 key v) t2 k' v').store
          = some (⟨v, t1 + c.ttl⟩ : MemoryEntry τ α)) ∧
    (∀ (c : InMemoryTTLCache τ α) (t : τ) (key : String) (v : α),
      (mset c t key v).store.length ≤ c.maxsize) := by
  refine ⟨?_, ?_, ?_, ?_⟩
  · intro c t l hc hmax hlen hn
    have hstore := msetMany_store_eq t l c hc hn
    rcases l with _ | ⟨kv₀, rest⟩
    · simp at hlen
    have hlen' : rest.length = c.maxsize := by
      simpa using hlen
    have hdrop : (msetMany c t (kv₀ :: rest)).store = rest.map (entryOf t c.ttl) := by
      rw [hstore, List.map_cons]
      have h1 : (kv₀ :: rest).length - c.maxsize = 1 := by
        simp only [List.length_cons]
        omega
      rw [h1, List.drop_one]
      rfl
    have hnrest : (rest.map Prod.fst).Nodup := by
      rw [List.map_cons] at hn
      exact (List.nodup_cons.mp hn).2
    have hhead : kv₀.1 ∉ rest.map Prod.fst := by
      rw [List.map_cons] at hn
      exact (List.nodup_cons.mp hn).1
    refine ⟨?_, ?_, ?_⟩
    · rw [hdrop, List.length_map, hlen']
    · intro kv h0
      have hkv : kv = kv₀ := by
        simp at h0
        exact h0.symm
      subst hkv
      rw [hdrop]
      exact lookup_map_entryOf_none t c.ttl hhead
    · intro kv hkv
      rw [hdrop]
      exact lookup_map_entryOf t c.ttl hnrest hkv
  · intro c now key entry hlook hnot hlen hmax k' t2 v' hk'
    have hmge := mget_eq_of_lookup_some now hlook
    rw [if_neg hnot] at hmge
    have hmv : moveToEnd key c.store = eraseKey key c.store ++ [(key, entry)] := by
      unfold moveToEnd
      rw [hlook]
    have hstore2 : (mget c now key).2.store = eraseKey key c.store ++ [(key, entry)] := by
      rw [hmge, hmv]
    have hfst : (mget c now key).1 = some entry.value := by
      rw [hmge]
    have hmax2 : (mget c now key).2.maxsize = c.maxsize := by
      rw [hmge]
    have hlen2 : (mget c now key).2.store.length ≤ (mget c now key).2.maxsize := by
      rw [hstore2, hmax2]
      have hlt := eraseKey_length_lt (lookup_some_mem hlook)
      simp only [List.length_append, List.length_cons, List.length_nil]
      omega
    refine ⟨hfst, ?_, ?_⟩
    · rw [hstore2]
      exact List.getLast?_concat _
    · exact lru_survive _ _ key entry hstore2 (eraseKey_forall_ne key c.store)
        hlen2 (hmax2 ▸ hmax) k' hk' t2 v'
  · intro c t1 key v hlen hmax k' t2 v' hk'
    have hd : (msetPre c key).length + 1 - c.maxsize ≤ (msetPre c key).length := by
      omega
    have hstore1 : (mset c t1 key v).store
        = (msetPre c key).drop ((msetPre c key).length + 1 - c.maxsize)
            ++ [(key, (⟨v, t1 + c.ttl⟩ : MemoryEntry τ α))] := by
      rw [mset_store_eq, List.drop_append_of_le_length hd]
    have hmax1 : (mset c t1 key v).maxsize = c.maxsize := mset_maxsize c t1 key v
    have hlen1 : (mset c t1 key v).store.length ≤ (mset c t1 key v).maxsize := by
      rw [hmax1]
      exact mset_length_le c t1 key v
    refine ⟨?_, ?_⟩
    · rw [hstore1]
      exact List.getLast?_concat _
    · exact lru_survive _ _ key _ hstore1
        (fun kv hkv => msetPre_forall_ne c key kv (List.mem_of_mem_drop hkv))
        hlen1 (hmax1 ▸ hmax) k' hk' t2 v'
  · intro c t key v
    exact mset_length_le c t key v

/-- Witness for the amended C4 at concrete caches over `τ = ℤ`: a maxsize-2
cache keeps exactly 2 of 3 freshly inserted keys; a touched key survives the
next eviction; a `set` never leaves more than `maxsize` entries. -/
theorem lru_eviction_amended_witness :
    (msetMany (⟨2, 7, []⟩ : InMemoryTTLCache ℤ Nat) 0
      [("a", 1), ("b", 2), ("c", 3)]).store.length = 2 ∧
    List.lookup "a"
      (mset (mget (⟨2, 7, [("a", ⟨1, 10⟩), ("k", ⟨5, 10⟩)]⟩ : InMemoryTTLCache ℤ Nat)
        0 "a").2 0 "b" 9).store = some ⟨1, 10⟩ ∧
    (mset (⟨2, 7, []⟩ : InMemoryTTLCache ℤ Nat) 0 "z" 4).store.length ≤ 2 :=
  ⟨((lru_eviction_amended (τ := ℤ) (α := Nat)).1 ⟨2, 7, []⟩ 0
      [("a", 1), ("b", 2), ("c", 3)] rfl (by decide) (by decide) (by decide)).1,
   ((lru_eviction_amended (τ := ℤ) (α := Nat)).2.1
      ⟨2, 7, [("a", ⟨1, 10⟩), ("k", ⟨5, 10⟩)]⟩ 0 "a" ⟨1, 10⟩ rfl (by decide)
      (by decide) (by decide) "b" 0 9 rfl).2.2,
   (lru_eviction_amended (τ := ℤ) (α := Nat)).2.2.2 ⟨2, 7, []⟩ 0 "z" 4⟩

/- ### Binary file cache lemmas -/

theorem lookup_setAssoc_self {β : Type} (key : String) (e : β)
    (l : List (String × β)) : List.lookup key (setAssoc key e l) = some e := by
  induction l with
  | nil => exact lookup_cons_self key e []
  | cons kv t ih =>
    by_cases hk : kv.1 = key
    · have hb : (kv.1 == key) = true := beq_iff_eq.mpr hk
      simp only [setAssoc, hb, if_true]
      exact lookup_cons_self key e t
    · have hb : (kv.1 == key) = false := beq_false_of_ne hk
      simp only [setAssoc, hb, Bool.false_eq_true, if_false]
      rw [show kv = (kv.1, kv.2) from rfl,
        lookup_cons_ne (fun e => hk e.symm)]
      exact ih

theorem fevict_diskExists {τ : Type} [LinearOrderedAddCommGroup τ]
    (c : BinaryFileCache τ) (key path : String) :
    diskExists path (fevict c key path).disk = false := by
  unfold fevict bestEffortUnlink
  cases h : diskExists path c.disk with
  | true =>
    simp only [h, if_true]
    unfold diskExists
    rw [lookup_eraseKey_self]
    rfl
  | false =>
    simp only [h, Bool.false_eq_true, if_false]

theorem fget_eq_of_lookup_none {τ : Type} [LinearOrderedAddCommGroup τ]
    {c : BinaryFileCache τ} {key : String} (now : τ)
    (h : List.lookup key c.entries = none) : fget c now key = (none, c) := by
  unfold fget
  rw [h]

theorem fget_eq_of_lookup_some {τ : Type} [LinearOrderedAddCommGroup τ]
    {c : BinaryFileCache τ} {key : String} {entry : FileEntry τ} (now : τ)
    (h : List.lookup key c.entries = some entry) :
    fget c now key =
      if now ≥ entry.expires_at ∨ ¬ diskExists entry.path c.disk then
        (none, fevict c key entry.path)
      else (some entry.path, c) := by
  unfold fget
  rw [h]

/-- C7: a file-cache `get` that finds the index entry absent returns absent
and leaves the state untouched; a `get` that finds the entry expired
(`clock() ≥ expiresAt`) or the backing file missing evicts the index entry,
deletes the file if it still exists, and returns absent; a `get` that finds a
live entry returns the recorded path with the state unchanged (the content is
not re-read); and after the TTL elapses, the path previously returned by
`set` is absent from the index and no longer exists on disk. -/
theorem file_cache_get_spec {τ : Type} [LinearOrderedAddCommGroup τ]
    (c : BinaryFileCache τ) (now : τ) (key : String) :
    (List.lookup key c.entries = none → fget c now key = (none, c)) ∧
    (∀ entry, List.lookup key c.entries = some entry →
      (now ≥ entry.expires_at ∨ diskExists entry.path c.disk = false →
        (fget c now key).1 = none ∧
        List.lookup key (fget c now key).2.entries = none ∧
        diskExists entry.path (fget c now key).2.disk = false) ∧
      (¬ now ≥ entry.expires_at → diskExists entry.path c.disk = true →
        fget c now key = (some entry.path, c))) ∧
    (∀ (content : List Nat) (suffix : String) (t0 : τ), now ≥ t0 + c.ttl →
      (fget (fset c t0 key content suffix).2 now key).1 = none ∧
      diskExists (fset c t0 key content suffix).1
        (fget (fset c t0 key content suffix).2 now key).2.disk = false) := by
  refine ⟨fget_eq_of_lookup_none now, ?_, ?_⟩
  · intro entry hlook
    have hfg := fget_eq_of_lookup_some now hlook
    constructor
    · intro hmiss
      have hcond : now ≥ entry.expires_at ∨ ¬ diskExists entry.path c.disk := by
        rcases hmiss with h | h
        · exact Or.inl h
        · exact Or.inr (by simp [h])
      rw [if_pos hcond] at hfg
      rw [hfg]
      refine ⟨rfl, ?_, ?_⟩
      · exact lookup_eraseKey_self key c.entries
      · exact fevict_diskExists c key entry.path
    · intro h1 h2
      have hcond : ¬ (now ≥ entry.expires_at ∨ ¬ diskExists entry.path c.disk) := by
        intro hc
        rcases hc with h | h
        · exact h1 h
        · exact h (by simp [h2])
      rw [if_neg hcond] at hfg
      exact hfg
  · intro content suffix t0 hexp
    have hlook : List.lookup key (fset c t0 key content suffix).2.entries
        = some ⟨(fset c t0 key content suffix).1, t0 + c.ttl⟩ := by
      unfold fset
      exact lookup_setAssoc_self key _ c.entries
    have httl : (fset c t0 key content suffix).2.ttl = c.ttl := rfl
    have hfg := fget_eq_of_lookup_some now hlook
    have hcond : now ≥ (⟨(fset c t0 key content suffix).1, t0 + c.ttl⟩ : FileEntry τ).expires_at
        ∨ ¬ diskExists (⟨(fset c t0 key content suffix).1, t0 + c.ttl⟩ : FileEntry τ).path
            (fset c t0 key content suffix).2.disk := Or.inl hexp
    rw [if_pos hcond] at hfg
    rw [hfg]
    exact ⟨rfl, fevict_diskExists _ key _⟩

/-- Witness for C7 over `τ = ℤ`: a payload written at time 0 with ttl 5 is
gone — from the index and from disk — at time 6. -/
theorem file_cache_get_spec_witness :
    (6 : ℤ) ≥ 0 + 5 ∧
    (fget (fset (⟨fun k => "h" ++ k, "dir", 5, [], []⟩ : BinaryFileCache ℤ)
      0 "key1" [1, 2] ".bin").2 6 "key1").1 = none ∧
    diskExists
      (fset (⟨fun k => "h" ++ k, "dir", 5, [], []⟩ : BinaryFileCache ℤ)
        0 "key1" [1, 2] ".bin").1
      (fget (fset (⟨fun k => "h" ++ k, "dir", 5, [], []⟩ : BinaryFileCache ℤ)
        0 "key1" [1, 2] ".bin").2 6 "key1").2.disk = false := by
  refine ⟨by decide, ?_, ?_⟩
  · exact ((file_cache_get_spec (⟨fun k => "h" ++ k, "dir", 5, [], []⟩ : BinaryFileCache ℤ)
      6 "key1").2.2 [1, 2] ".bin" 0 (by decide)).1
  · exact ((file_cache_get_spec (⟨fun k => "h" ++ k, "dir", 5, [], []⟩ : BinaryFileCache ℤ)
      6 "key1").2.2 [1, 2] ".bin" 0 (by decide)).2

/- ### Retry loop lemmas -/

/-- Full characterization of the attempt loop: at most `k + 1` upstream calls
are made; every response consumed before the final one had a retryable
status; a success is the 2xx response at the last consumed position; an
`httpStatus` error is raised at the first non-retryable non-2xx response; a
`retryableStatus` error is re-raised only after the whole attempt budget
(`k + 1` calls) was spent on retryable statuses. -/
theorem sendLoop_spec (rs : List Response) : ∀ k : Nat,
    (sendLoop k rs).2.1 ≤ k + 1 ∧
    (∀ r ∈ rs.take ((sendLoop k rs).2.1 - 1), retryableStatus r.status = true) ∧
    (∀ resp, (sendLoop k rs).1 = .ok resp →
      is2xx resp.status = true ∧ rs[(sendLoop k rs).2.1 - 1]? = some resp ∧
      1 ≤ (sendLoop k rs).2.1) ∧
    (∀ s, (sendLoop k rs).1 = .error (.httpStatus s) →
      ∃ r, rs[(sendLoop k rs).2.1 - 1]? = some r ∧ r.status = s ∧
        retryableStatus s = false ∧ is2xx s = false ∧ 1 ≤ (sendLoop k rs).2.1) ∧
    (∀ s, (sendLoop k rs).1 = .error (.retryableStatus s) →
      (sendLoop k rs).2.1 = k + 1 ∧
      ∃ r, rs[(sendLoop k rs).2.1 - 1]? = some r ∧ r.status = s ∧
        retryableStatus s = true) := by
  induction rs with
  | nil =>
    intro k
    refine ⟨by simp [sendLoop], by simp [sendLoop], ?_, ?_, ?_⟩
    · intro resp h
      simp [sendLoop] at h
    · intro s h
      simp [sendLoop] at h
    · intro s h
      simp [sendLoop] at h
  | cons r rest ih =>
    intro k
    cases hR : retryableStatus r.status with
    | true =>
      cases k with
      | zero =>
        have he : sendLoop 0 (r :: rest)
            = (.error (.retryableStatus r.status), 1, rest) := by
          simp [sendLoop, hR]
        refine ⟨by rw [he], by rw [he]; simp, ?_, ?_, ?_⟩
        · intro resp h
          rw [he] at h
          cases h
        · intro s h
          rw [he] at h
          cases h
        · intro s h
          rw [he] at h
          injection h with h
          injection h with h
          subst h
          rw [he]
          exact ⟨rfl, r, by simp, rfl, hR⟩
      | succ k' =>
        have he : sendLoop (k' + 1) (r :: rest)
            = ((sendLoop k' rest).1, (sendLoop k' rest).2.1 + 1,
                (sendLoop k' rest).2.2) := by
          simp [sendLoop, hR]
        obtain ⟨ihb, ihtake, ihok, ihhttp, ihretry⟩ := ih k'
        refine ⟨?_, ?_, ?_, ?_, ?_⟩
        · rw [he]
          simp only []
          omega
        · rw [he]
          simp only [Nat.add_sub_cancel]
          intro r' hr'
          cases hoc : (sendLoop k' rest).2.1 with
          | zero =>
            rw [hoc] at hr'
            simp at hr'
          | succ n =>
            rw [hoc] at hr'
            rw [List.take_succ_cons] at hr'
            rcases List.mem_cons.mp hr' with rfl | hmem
            · exact hR
            · exact ihtake r' (by rw [hoc]; simpa using hmem)
        · intro resp h
          rw [he] at h
          obtain ⟨h1, h2, h3⟩ := ihok resp h
          rw [he]
          simp only [Nat.add_sub_cancel]
          refine ⟨h1, ?_, by omega⟩
          obtain ⟨n, hn⟩ := Nat.exists_eq_add_of_le h3
          have hoc : (sendLoop k' rest).2.1 = n + 1 := by omega
          rw [hoc, List.getElem?_cons_succ]
          rw [hoc] at h2
          simpa using h2
        · intro s h
          rw [he] at h
          obtain ⟨r', h1, h2, h3, h4, h5⟩ := ihhttp s h
          rw [he]
          simp only [Nat.add_sub_cancel]
          obtain ⟨n, hn⟩ := Nat.exists_eq_add_of_le h5
          have hoc : (sendLoop k' rest).2.1 = n + 1 := by omega
          refine ⟨r', ?_, h2, h3, h4, by omega⟩
          rw [hoc, List.getElem?_cons_succ]
          rw [hoc] at h1
          simpa using h1
        · intro s h
          rw [he] at h
          obtain ⟨h0, r', h1, h2, h3⟩ := ihretry s h
          rw [he]
          simp only [Nat.add_sub_cancel]
          refine ⟨by omega, r', ?_, h2, h3⟩
          have hoc : (sendLoop k' rest).2.1 = k' + 1 := h0
          rw [hoc, List.getElem?_cons_succ]
          rw [hoc] at h1
          simpa using h1
    | false =>
      cases h2 : is2xx r.status with
      | true =>
        have he : sendLoop k (r :: rest) = (.ok r, 1, rest) := by
          unfold sendLoop
          rw [hR]
          simp [h2]
        refine ⟨by rw [he]; exact Nat.succ_le_succ (Nat.zero_le k), by rw [he]; simp, ?_, ?_, ?_⟩
        · intro resp h
          rw [he] at h
          injection h with h
          subst h
          rw [he]
          exact ⟨h2, by simp, by simp⟩
        · intro s h
          rw [he] at h
          cases h
        · intro s h
          rw [he] at h
          cases h
      | false =>
        have he : sendLoop k (r :: rest) = (.error (.httpStatus r.status), 1, rest) := by
          unfold sendLoop
          rw [hR]
          simp [h2]
        refine ⟨by rw [he]; exact Nat.succ_le_succ (Nat.zero_le k), by rw [he]; simp, ?_, ?_, ?_⟩
        · intro resp h
          rw [he] at h
          cases h
        · intro s h
          rw [he] at h
          injection h with h
          injection h with h
          subst h
          rw [he]
          exact ⟨r, by simp, rfl, hR, h2, by simp⟩
        · intro s h
          rw [he] at h
          injection h with h
          cases h

/-- C2: the upstream call inside `fetch` is retried only while the response
status is in `{408, 409, 425, 429} ∪ [500, 599]`, up to the configured
maximum number of attempts (`max_attempts`, default 4, with tenacity always
running at least one attempt); any other non-2xx status raises immediately
without retry (every earlier consumed response was retryable and the failing
response is the last one consumed); and exhausting all attempts while still
receiving retryable statuses re-raises the last retryable-status error. -/
theorem retry_policy (m : Nat) (rs : List Response) :
    (sendWithRetry m rs).2.1 ≤ max m 1 ∧
    (∀ r ∈ rs.take ((sendWithRetry m rs).2.1 - 1), retryableStatus r.status = true) ∧
    (∀ resp, (sendWithRetry m rs).1 = .ok resp →
      is2xx resp.status = true ∧ rs[(sendWithRetry m rs).2.1 - 1]? = some resp ∧
      1 ≤ (sendWithRetry m rs).2.1) ∧
    (∀ s, (sendWithRetry m rs).1 = .error (.httpStatus s) →
      ∃ r, rs[(sendWithRetry m rs).2.1 - 1]? = some r ∧ r.status = s ∧
        retryableStatus s = false ∧ is2xx s = false ∧
        1 ≤ (sendWithRetry m rs).2.1) ∧
    (∀ s, (sendWithRetry m rs).1 = .error (.retryableStatus s) →
      (sendWithRetry m rs).2.1 = max m 1 ∧
      ∃ r, rs[(sendWithRetry m rs).2.1 - 1]? = some r ∧ r.status = s ∧
        retryableStatus s = true) := by
  have hmax : m - 1 + 1 = max m 1 := by omega
  have h := sendLoop_spec rs (m - 1)
  rw [hmax] at h
  exact h

/-- Witness for C2: the spec's retry-then-succeed scenario `[429, 200]` with
the default budget of 4 attempts — the success is the 200 response, found at
consumed position `calls - 1`. -/
theorem retry_policy_witness :
    is2xx (⟨200, JsonVal.null, [7]⟩ : Response).status = true ∧
    [(⟨429, JsonVal.null, []⟩ : Response), ⟨200, JsonVal.null, [7]⟩][
      (sendWithRetry 4 [(⟨429, JsonVal.null, []⟩ : Response),
        ⟨200, JsonVal.null, [7]⟩]).2.1 - 1]? = some ⟨200, JsonVal.null, [7]⟩ ∧
    1 ≤ (sendWithRetry 4 [(⟨429, JsonVal.null, []⟩ : Response),
      ⟨200, JsonVal.null, [7]⟩]).2.1 :=
  (retry_policy 4 [⟨429, JsonVal.null, []⟩, ⟨200, JsonVal.null, [7]⟩]).2.2.1
    ⟨200, JsonVal.null, [7]⟩ rfl

/- ### Fetch characterization lemmas -/

section FetchLemmas

variable {τ : Type} [LinearOrderedAddCommGroup τ]

/-- Stats after one plain cache-miss fetch path (total and misses bumped by
the caller and by the miss path respectively, errors bumped on raise). -/
def statsMiss (st : Stats) (err : Bool) : Stats :=
  ⟨st.total_requests, st.cache_hits, st.cache_misses + 1,
    if err then st.api_errors + 1 else st.api_errors⟩

theorem fetchMiss_eq_error (c : MLITHttpClient τ) (now : τ) (nf ck : String)
    (rs : List Response) {e : UpstreamError} {n : Nat} {rest : List Response}
    (h : sendWithRetry c.max_attempts rs = (.error e, n, rest)) :
    fetchMiss c now nf ck rs =
      (.error e, { c with stats := statsMiss c.stats true }, n, rest) := by
  unfold fetchMiss
  simp only [h]
  rfl

theorem fetchMiss_eq_ok_json (c : MLITHttpClient τ) (now : τ) {nf : String}
    (ck : String) (rs : List Response) {resp : Response} {n : Nat}
    {rest : List Response}
    (h : sendWithRetry c.max_attempts rs = (.ok resp, n, rest))
    (hnf : nf = "json") :
    fetchMiss c now nf ck rs =
      (.ok { data := resp.jsonBody, file_path := none, from_cache := false },
        { c with
          stats := statsMiss c.stats false
          json_cache := mset c.json_cache now ck resp.jsonBody },
        n, rest) := by
  unfold fetchMiss
  simp only [h, hnf, if_pos]
  rfl

theorem fetchMiss_eq_ok_file (c : MLITHttpClient τ) (now : τ) {nf : String}
    (ck : String) (rs : List Response) {resp : Response} {n : Nat}
    {rest : List Response}
    (h : sendWithRetry c.max_attempts rs = (.ok resp, n, rest))
    (hnf : ¬ nf = "json") :
    fetchMiss c now nf ck rs =
      (.ok { data := JsonVal.null,
             file_path := some (fset c.file_cache now ck resp.content
               (suffix_for_format nf)).1,
             from_cache := false },
        { c with
          stats := statsMiss c.stats false
          file_cache := (fset c.file_cache now ck resp.content
            (suffix_for_format nf)).2 },
        n, rest) := by
  unfold fetchMiss
  simp only [h, if_neg hnf]
  rfl

/-- Stats after the initial total-requests bump that every fetch performs. -/
def statsEnter (st : Stats) : Stats :=
  ⟨st.total_requests + 1, st.cache_hits, st.cache_misses, st.api_errors⟩

/-- Stats of a fetch that ends in a cache hit. -/
def statsHit (st : Stats) : Stats :=
  ⟨st.total_requests + 1, st.cache_hits + 1, st.cache_misses, st.api_errors⟩

theorem fetch_eq_force (c : MLITHttpClient τ) (now : τ) (ep : String)
    (p : Option (List (String × PVal))) (fmt : String) (rs : List Response) :
    fetch c now ep p fmt true rs
      = fetchMiss { c with stats := statsEnter c.stats }
          now (toLowerAscii fmt) (build_cache_key ep p fmt) rs := rfl

theorem fetch_eq_json_hit (c : MLITHttpClient τ) (now : τ) (ep : String)
    (p : Option (List (String × PVal))) {fmt : String} (rs : List Response)
    (hnf : toLowerAscii fmt = "json") {v : JsonVal}
    (hget : (mget c.json_cache now (build_cache_key ep p fmt)).1 = some v)
    (hv : v.isNull = false) :
    fetch c now ep p fmt false rs
      = (.ok { data := v, file_path := none, from_cache := true },
         { c with
           stats := statsHit c.stats
           json_cache := (mget c.json_cache now (build_cache_key ep p fmt)).2 },
         0, rs) := by
  unfold fetch
  have hjc : ({ c with
      stats := { c.stats with total_requests := c.stats.total_requests + 1 } } :
      MLITHttpClient τ).json_cache = c.json_cache := rfl
  simp only [Bool.false_eq_true, if_false, hjc, hnf, if_pos, hget,
    Option.getD_some, hv]
  rfl

theorem fetch_eq_json_misslike (c : MLITHttpClient τ) (now : τ) (ep : String)
    (p : Option (List (String × PVal))) {fmt : String} (rs : List Response)
    (hnf : toLowerAscii fmt = "json")
    (hget : ((mget c.json_cache now (build_cache_key ep p fmt)).1.getD
      JsonVal.null).isNull = true) :
    fetch c now ep p fmt false rs
      = fetchMiss
          { c with
            stats := statsEnter c.stats
            json_cache := (mget c.json_cache now (build_cache_key ep p fmt)).2 }
          now (toLowerAscii fmt) (build_cache_key ep p fmt) rs := by
  unfold fetch
  have hjc : ({ c with
      stats := { c.stats with total_requests := c.stats.total_requests + 1 } } :
      MLITHttpClient τ).json_cache = c.json_cache := rfl
  simp only [Bool.false_eq_true, if_false, hjc, hnf, if_pos, hget, if_true]
  rfl

theorem fetch_eq_file_hit (c : MLITHttpClient τ) (now : τ) (ep : String)
    (p : Option (List (String × PVal))) {fmt : String} (rs : List Response)
    (hnf : ¬ toLowerAscii fmt = "json") {path : String}
    (hget : (fget c.file_cache now (build_cache_key ep p fmt)).1 = some path) :
    fetch c now ep p fmt false rs
      = (.ok { data := JsonVal.null, file_path := some path, from_cache := true },
         { c with
           stats := statsHit c.stats
           file_cache := (fget c.file_cache now (build_cache_key ep p fmt)).2 },
         0, rs) := by
  unfold fetch
  have hfc : ({ c with
      stats := { c.stats with total_requests := c.stats.total_requests + 1 } } :
      MLITHttpClient τ).file_cache = c.file_cache := rfl
  simp only [Bool.false_eq_true, if_false, hfc, if_neg hnf, hget]
  rfl

theorem fetch_eq_file_miss (c : MLITHttpClient τ) (now : τ) (ep : String)
    (p : Option (List (String × PVal))) {fmt : String} (rs : List Response)
    (hnf : ¬ toLowerAscii fmt = "json")
    (hget : (fget c.file_cache now (build_cache_key ep p fmt)).1 = none) :
    fetch c now ep p fmt false rs
      = fetchMiss
          { c with
            stats := statsEnter c.stats
            file_cache := (fget c.file_cache now (build_cache_key ep p fmt)).2 }
          now (toLowerAscii fmt) (build_cache_key ep p fmt) rs := by
  unfold fetch
  have hfc : ({ c with
      stats := { c.stats with total_requests := c.stats.total_requests + 1 } } :
      MLITHttpClient τ).file_cache = c.file_cache := rfl
  simp only [Bool.false_eq_true, if_false, hfc, if_neg hnf, hget]
  rfl

end FetchLemmas

/- ### Fetch outcome helper lemmas -/

theorem sendWithRetry_ok_pos {m : Nat} {rs : List Response} {resp : Response}
    {n : Nat} {rest : List Response}
    (hs : sendWithRetry m rs = (.ok resp, n, rest)) : 1 ≤ n := by
  have h := (sendLoop_spec rs (m - 1)).2.2.1 resp
  unfold sendWithRetry at hs
  rw [hs] at h
  exact (h rfl).2.2

theorem fetchMiss_ok_shape {τ : Type} [LinearOrderedAddCommGroup τ]
    (c : MLITHttpClient τ) (now : τ) (nf ck : String) (rs : List Response)
    (r : FetchResult) (h : (fetchMiss c now nf ck rs).1 = .ok r) :
    r.from_cache = false ∧ 1 ≤ (fetchMiss c now nf ck rs).2.2.1 := by
  rcases hs : sendWithRetry c.max_attempts rs with ⟨res, n, rest⟩
  cases res with
  | error e =>
    rw [fetchMiss_eq_error c now nf ck rs hs] at h
    cases h
  | ok resp =>
    by_cases hnf : nf = "json"
    · rw [fetchMiss_eq_ok_json c now ck rs hs hnf] at h ⊢
      injection h with h
      rw [← h]
      exact ⟨rfl, sendWithRetry_ok_pos hs⟩
    · rw [fetchMiss_eq_ok_file c now ck rs hs hnf] at h ⊢
      injection h with h
      rw [← h]
      exact ⟨rfl, sendWithRetry_ok_pos hs⟩

theorem fetchMiss_stats {τ : Type} [LinearOrderedAddCommGroup τ]
    (c : MLITHttpClient τ) (now : τ) (nf ck : String) (rs : List Response) :
    (fetchMiss c now nf ck rs).2.1.stats.total_requests = c.stats.total_requests ∧
    (fetchMiss c now nf ck rs).2.1.stats.cache_hits = c.stats.cache_hits ∧
    (fetchMiss c now nf ck rs).2.1.stats.cache_misses = c.stats.cache_misses + 1 := by
  rcases hs : sendWithRetry c.max_attempts rs with ⟨res, n, rest⟩
  cases res with
  | error e =>
    rw [fetchMiss_eq_error c now nf ck rs hs]
    exact ⟨rfl, rfl, rfl⟩
  | ok resp =>
    by_cases hnf : nf = "json"
    · rw [fetchMiss_eq_ok_json c now ck rs hs hnf]
      exact ⟨rfl, rfl, rfl⟩
    · rw [fetchMiss_eq_ok_file c now ck rs hs hnf]
      exact ⟨rfl, rfl, rfl⟩

/-- C1: a `fetch` invocation that returns a `FetchResult` has
`from_cache = true` exactly when it issued zero upstream HTTP calls: a cache
hit issues none, and any miss or force-refresh path that returns a result
issued at least one. -/
theorem from_cache_iff_no_upstream {τ : Type} [LinearOrderedAddCommGroup τ]
    (c : MLITHttpClient τ) (now : τ) (ep : String)
    (p : Option (List (String × PVal))) (fmt : String) (force : Bool)
    (rs : List Response) (r : FetchResult)
    (h : (fetch c now ep p fmt force rs).1 = .ok r) :
    r.from_cache = true ↔ (fetch c now ep p fmt force rs).2.2.1 = 0 := by
  cases force with
  | true =>
    rw [fetch_eq_force] at h ⊢
    have hshape := fetchMiss_ok_shape _ now _ _ rs r h
    rw [hshape.1]
    have hn := hshape.2
    constructor
    · intro hc
      cases hc
    · intro hc
      omega
  | false =>
    by_cases hnf : toLowerAscii fmt = "json"
    · cases ho : ((mget c.json_cache now (build_cache_key ep p fmt)).1.getD
        JsonVal.null).isNull with
      | true =>
        rw [fetch_eq_json_misslike c now ep p rs hnf ho] at h ⊢
        have hshape := fetchMiss_ok_shape _ now _ _ rs r h
        rw [hshape.1]
        have hn := hshape.2
        constructor
        · intro hc
          cases hc
        · intro hc
          omega
      | false =>
        cases hov : (mget c.json_cache now (build_cache_key ep p fmt)).1 with
        | none =>
          rw [hov] at ho
          simp [JsonVal.isNull] at ho
        | some v =>
          rw [hov] at ho
          simp only [Option.getD_some] at ho
          rw [fetch_eq_json_hit c now ep p rs hnf hov ho] at h ⊢
          injection h with h
          rw [← h]
          simp
    · cases hov : (fget c.file_cache now (build_cache_key ep p fmt)).1 with
      | none =>
        rw [fetch_eq_file_miss c now ep p rs hnf hov] at h ⊢
        have hshape := fetchMiss_ok_shape _ now _ _ rs r h
        rw [hshape.1]
        have hn := hshape.2
        constructor
        · intro hc
          cases hc
        · intro hc
          omega
      | some path =>
        rw [fetch_eq_file_hit c now ep p rs hnf hov] at h ⊢
        injection h with h
        rw [← h]
        simp

/-- Witness for C1 over `τ = ℤ`: a miss on a fresh client — the returned
result has `from_cache = false` and the call count is nonzero, matching the
equivalence. -/
theorem from_cache_iff_no_upstream_witness :
    ((⟨JsonVal.num 3, none, false⟩ : FetchResult).from_cache = true ↔
      (fetch
        (⟨⟨4, 5, []⟩, ⟨fun _ => "h", "d", 5, [], []⟩, 4, ⟨0, 0, 0, 0⟩⟩ :
          MLITHttpClient ℤ)
        0 "e" none "json" false [⟨200, JsonVal.num 3, []⟩]).2.2.1 = 0) :=
  from_cache_iff_no_upstream
    (⟨⟨4, 5, []⟩, ⟨fun _ => "h", "d", 5, [], []⟩, 4, ⟨0, 0, 0, 0⟩⟩ :
      MLITHttpClient ℤ)
    0 "e" none "json" false [⟨200, JsonVal.num 3, []⟩]
    ⟨JsonVal.num 3, none, false⟩ rfl

/- ### Best-effort unlink lemmas -/

theorem diskExists_bestEffortUnlink_self (d : List (String × List Nat))
    (path : String) : diskExists path (bestEffortUnlink d path) = false := by
  unfold bestEffortUnlink
  cases h : diskExists path d with
  | true =>
    simp only [if_true]
    unfold diskExists
    rw [lookup_eraseKey_self]
    rfl
  | false =>
    simp only [Bool.false_eq_true, if_false]
    exact h

theorem diskExists_bestEffortUnlink_mono (d : List (String × List Nat))
    {p : String} (q : String) (h : diskExists p d = false) :
    diskExists p (bestEffortUnlink d q) = false := by
  unfold bestEffortUnlink
  cases hq : diskExists q d with
  | true =>
    simp only [if_true]
    by_cases hpq : p = q
    · subst hpq
      unfold diskExists
      rw [lookup_eraseKey_self]
      rfl
    · unfold diskExists at h ⊢
      rw [lookup_eraseKey_ne hpq]
      exact h
  | false =>
    simp only [Bool.false_eq_true, if_false]
    exact h

theorem foldl_unlink_preserves {τ : Type} (l : List (String × FileEntry τ)) :
    ∀ (d : List (String × List Nat)) (p : String), diskExists p d = false →
      diskExists p (l.foldl (fun d kv => bestEffortUnlink d kv.2.path) d) = false := by
  induction l with
  | nil => intro d p h; exact h
  | cons a t ih =>
    intro d p h
    exact ih (bestEffortUnlink d a.2.path) p (diskExists_bestEffortUnlink_mono d _ h)

theorem foldl_unlink_gone {τ : Type} (l : List (String × FileEntry τ)) :
    ∀ (d : List (String × List Nat)) (kv : String × FileEntry τ), kv ∈ l →
      diskExists kv.2.path
        (l.foldl (fun d kv => bestEffortUnlink d kv.2.path) d) = false := by
  induction l with
  | nil =>
    intro d kv hkv
    cases hkv
  | cons a t ih =>
    intro d kv hkv
    rcases List.mem_cons.mp hkv with rfl | hmem
    · exact foldl_unlink_preserves t _ _ (diskExists_bestEffortUnlink_self d kv.2.path)
    · exact ih (bestEffortUnlink d a.2.path) kv hmem

/-- C6: every `fetch` call increments `total_requests` by exactly 1 regardless
of outcome (hit, miss, force refresh, or raised error); over any sequence of
non-force-refresh `fetch` calls starting from a client satisfying
`cache_hits + cache_misses = total_requests` (e.g. a fresh one) the equality
is preserved; and `clear_cache` resets all four counters to 0 and empties
both cache tiers (including deleting every indexed backing file). -/
theorem stats_accounting {τ : Type} [LinearOrderedAddCommGroup τ] :
    (∀ (c : MLITHttpClient τ) (now : τ) (ep : String)
        (p : Option (List (String × PVal))) (fmt : String) (force : Bool)
        (rs : List Response),
      (fetch c now ep p fmt force rs).2.1.stats.total_requests
        = c.stats.total_requests + 1) ∧
    (∀ (c : MLITHttpClient τ) (now : τ) (ep : String)
        (p : Option (List (String × PVal))) (fmt : String) (rs : List Response),
      c.stats.cache_hits + c.stats.cache_misses = c.stats.total_requests →
      (fetch c now ep p fmt false rs).2.1.stats.cache_hits
          + (fetch c now ep p fmt false rs).2.1.stats.cache_misses
        = (fetch c now ep p fmt false rs).2.1.stats.total_requests) ∧
    (∀ (c : MLITHttpClient τ) (reqs : List (FetchRequest τ)),
      c.stats.cache_hits + c.stats.cache_misses = c.stats.total_requests →
      (runFetches c reqs).stats.cache_hits + (runFetches c reqs).stats.cache_misses
        = (runFetches c reqs).stats.total_requests) ∧
    (∀ c : MLITHttpClient τ,
      (clear_cache c).stats = ⟨0, 0, 0, 0⟩ ∧
      (clear_cache c).json_cache.store = [] ∧
      (clear_cache c).file_cache.entries = [] ∧
      ∀ kv ∈ c.file_cache.entries,
        diskExists kv.2.path (clear_cache c).file_cache.disk = false) := by
  have htotal : ∀ (c : MLITHttpClient τ) (now : τ) (ep : String)
      (p : Option (List (String × PVal))) (fmt : String) (force : Bool)
      (rs : List Response),
      (fetch c now ep p fmt force rs).2.1.stats.total_requests
        = c.stats.total_requests + 1 := by
    intro c now ep p fmt force rs
    cases force with
    | true =>
      rw [fetch_eq_force]
      exact (fetchMiss_stats _ now _ _ rs).1
    | false =>
      by_cases hnf : toLowerAscii fmt = "json"
      · cases ho : ((mget c.json_cache now (build_cache_key ep p fmt)).1.getD
          JsonVal.null).isNull with
        | true =>
          rw [fetch_eq_json_misslike c now ep p rs hnf ho]
          exact (fetchMiss_stats _ now _ _ rs).1
        | false =>
          cases hov : (mget c.json_cache now (build_cache_key ep p fmt)).1 with
          | none =>
            rw [hov] at ho
            simp [JsonVal.isNull] at ho
          | some v =>
            rw [hov] at ho
            simp only [Option.getD_some] at ho
            rw [fetch_eq_json_hit c now ep p rs hnf hov ho]
            rfl
      · cases hov : (fget c.file_cache now (build_cache_key ep p fmt)).1 with
        | none =>
          rw [fetch_eq_file_miss c now ep p rs hnf hov]
          exact (fetchMiss_stats _ now _ _ rs).1
        | some path =>
          rw [fetch_eq_file_hit c now ep p rs hnf hov]
          rfl
  have hpres : ∀ (c : MLITHttpClient τ) (now : τ) (ep : String)
      (p : Option (List (String × PVal))) (fmt : String) (rs : List Response),
      c.stats.cache_hits + c.stats.cache_misses = c.stats.total_requests →
      (fetch c now ep p fmt false rs).2.1.stats.cache_hits
          + (fetch c now ep p fmt false rs).2.1.stats.cache_misses
        = (fetch c now ep p fmt false rs).2.1.stats.total_requests := by
    intro c now ep p fmt rs hinv
    by_cases hnf : toLowerAscii fmt = "json"
    · cases ho : ((mget c.json_cache now (build_cache_key ep p fmt)).1.getD
        JsonVal.null).isNull with
      | true =>
        rw [fetch_eq_json_misslike c now ep p rs hnf ho]
        obtain ⟨h1, h2, h3⟩ := fetchMiss_stats
          { c with
            stats := statsEnter c.stats
            json_cache := (mget c.json_cache now (build_cache_key ep p fmt)).2 }
          now (toLowerAscii fmt) (build_cache_key ep p fmt) rs
        rw [h1, h2, h3]
        unfold statsEnter
        simp only []
        omega
      | false =>
        cases hov : (mget c.json_cache now (build_cache_key ep p fmt)).1 with
        | none =>
          rw [hov] at ho
          simp [JsonVal.isNull] at ho
        | some v =>
          rw [hov] at ho
          simp only [Option.getD_some] at ho
          rw [fetch_eq_json_hit c now ep p rs hnf hov ho]
          unfold statsHit
          simp only []
          omega
    · cases hov : (fget c.file_cache now (build_cache_key ep p fmt)).1 with
      | none =>
        rw [fetch_eq_file_miss c now ep p rs hnf hov]
        obtain ⟨h1, h2, h3⟩ := fetchMiss_stats
          { c with
            stats := statsEnter c.stats
            file_cache := (fget c.file_cache now (build_cache_key ep p fmt)).2 }
          now (toLowerAscii fmt) (build_cache_key ep p fmt) rs
        rw [h1, h2, h3]
        unfold statsEnter
        simp only []
        omega
      | some path =>
        rw [fetch_eq_file_hit c now ep p rs hnf hov]
        unfold statsHit
        simp only []
        omega
  refine ⟨htotal, hpres, ?_, ?_⟩
  · intro c reqs
    induction reqs generalizing c with
    | nil => intro h; exact h
    | cons q qs ih =>
      intro h
      exact ih _ (hpres c q.now q.endpoint q.params q.response_format q.responses h)
  · intro c
    refine ⟨rfl, rfl, rfl, ?_⟩
    intro kv hkv
    exact foldl_unlink_gone c.file_cache.entries c.file_cache.disk kv hkv

/-- Witness for C6 over `τ = ℤ`: the invariant holds after running one
non-forced request from a fresh client (0 hits + 0 misses = 0 total). -/
theorem stats_accounting_witness :
    (runFetches
        (⟨⟨4, 5, []⟩, ⟨fun _ => "h", "d", 5, [], []⟩, 4, ⟨0, 0, 0, 0⟩⟩ :
          MLITHttpClient ℤ)
        [⟨0, "e", none, "json", [⟨200, JsonVal.null, []⟩]⟩]).stats.cache_hits
      + (runFetches
          (⟨⟨4, 5, []⟩, ⟨fun _ => "h", "d", 5, [], []⟩, 4, ⟨0, 0, 0, 0⟩⟩ :
            MLITHttpClient ℤ)
          [⟨0, "e", none, "json", [⟨200, JsonVal.null, []⟩]⟩]).stats.cache_misses
      = (runFetches
          (⟨⟨4, 5, []⟩, ⟨fun _ => "h", "d", 5, [], []⟩, 4, ⟨0, 0, 0, 0⟩⟩ :
            MLITHttpClient ℤ)
          [⟨0, "e", none, "json", [⟨200, JsonVal.null, []⟩]⟩]).stats.total_requests :=
  (stats_accounting (τ := ℤ)).2.2.1
    (⟨⟨4, 5, []⟩, ⟨fun _ => "h", "d", 5, [], []⟩, 4, ⟨0, 0, 0, 0⟩⟩ :
      MLITHttpClient ℤ)
    [⟨0, "e", none, "json", [⟨200, JsonVal.null, []⟩]⟩] rfl

/- ### Result-population lemmas -/

theorem fetchMiss_ok_fields {τ : Type} [LinearOrderedAddCommGroup τ]
    (c : MLITHttpClient τ) (now : τ) (nf ck : String) (rs : List Response)
    (r : FetchResult) (h : (fetchMiss c now nf ck rs).1 = .ok r) :
    (nf = "json" → r.file_path = none) ∧
    (¬ nf = "json" → r.data.isNull = true ∧ r.file_path.isSome = true) := by
  rcases hs : sendWithRetry c.max_attempts rs with ⟨res, n, rest⟩
  cases res with
  | error e =>
    rw [fetchMiss_eq_error c now nf ck rs hs] at h
    cases h
  | ok resp =>
    by_cases hnf : nf = "json"
    · rw [fetchMiss_eq_ok_json c now ck rs hs hnf] at h
      injection h with h
      rw [← h]
      exact ⟨fun _ => rfl, fun hn => absurd hnf hn⟩
    · rw [fetchMiss_eq_ok_file c now ck rs hs hnf] at h
      injection h with h
      rw [← h]
      exact ⟨fun hj => absurd hj hnf, fun _ => ⟨rfl, rfl⟩⟩

/-- Counterexample to C9 as stated: a json fetch whose 200 body parses to
JSON null returns a `FetchResult` with `data = None` and `filePath = None` —
neither of the two fields is populated. -/
theorem fetch_result_population_counterexample :
    (fetch
      (⟨⟨4, 5, []⟩, ⟨fun _ => "h", "d", 5, [], []⟩, 4, ⟨0, 0, 0, 0⟩⟩ :
        MLITHttpClient ℤ)
      0 "e" none "json" false [⟨200, JsonVal.null, []⟩]).1
      = .ok ⟨JsonVal.null, none, false⟩ ∧
    (⟨JsonVal.null, none, false⟩ : FetchResult).data.isNull = true ∧
    (⟨JsonVal.null, none, false⟩ : FetchResult).file_path = none :=
  ⟨rfl, rfl, rfl⟩

/-- C9 (amended): every `FetchResult` returned by `fetch` has `filePath`
populated and `data` absent for every non-json format; for the json format
`filePath` is always absent and `data` is non-null on every cache-hit result,
but a fetched body that parses to JSON null is returned with `data` null too,
leaving both fields unpopulated (see the counterexample). -/
theorem fetch_result_population_amended {τ : Type} [LinearOrderedAddCommGroup τ]
    (c : MLITHttpClient τ) (now : τ) (ep : String)
    (p : Option (List (String × PVal))) (fmt : String) (force : Bool)
    (rs : List Response) (r : FetchResult)
    (h : (fetch c now ep p fmt force rs).1 = .ok r) :
    (toLowerAscii fmt = "json" →
      r.file_path = none ∧ (r.from_cache = true → r.data.isNull = false)) ∧
    (¬ toLowerAscii fmt = "json" →
      r.data.isNull = true ∧ r.file_path.isSome = true) := by
  cases force with
  | true =>
    rw [fetch_eq_force] at h
    have hf := fetchMiss_ok_fields _ now _ _ rs r h
    have hshape := fetchMiss_ok_shape _ now _ _ rs r h
    refine ⟨fun hj => ⟨hf.1 hj, ?_⟩, hf.2⟩
    intro hc
    rw [hshape.1] at hc
    cases hc
  | false =>
    by_cases hnf : toLowerAscii fmt = "json"
    · cases ho : ((mget c.json_cache now (build_cache_key ep p fmt)).1.getD
        JsonVal.null).isNull with
      | true =>
        rw [fetch_eq_json_misslike c now ep p rs hnf ho] at h
        have hf := fetchMiss_ok_fields _ now _ _ rs r h
        have hshape := fetchMiss_ok_shape _ now _ _ rs r h
        refine ⟨fun hj => ⟨hf.1 hnf, ?_⟩, hf.2⟩
        intro hc
        rw [hshape.1] at hc
        cases hc
      | false =>
        cases hov : (mget c.json_cache now (build_cache_key ep p fmt)).1 with
        | none =>
          rw [hov] at ho
          simp [JsonVal.isNull] at ho
        | some v =>
          rw [hov] at ho
          simp only [Option.getD_some] at ho
          rw [fetch_eq_json_hit c now ep p rs hnf hov ho] at h
          injection h with h
          rw [← h]
          exact ⟨fun _ => ⟨rfl, fun _ => ho⟩, fun hn => absurd hnf hn⟩
    · cases hov : (fget c.file_cache now (build_cache_key ep p fmt)).1 with
      | none =>
        rw [fetch_eq_file_miss c now ep p rs hnf hov] at h
        have hf := fetchMiss_ok_fields _ now _ _ rs r h
        exact ⟨fun hj => absurd hj hnf, hf.2⟩
      | some path =>
        rw [fetch_eq_file_hit c now ep p rs hnf hov] at h
        injection h with h
        rw [← h]
        exact ⟨fun hj => absurd hj hnf, fun _ => ⟨rfl, rfl⟩⟩

/-- Witness for the amended C9 over `τ = ℤ`: a geojson fetch returns a result
with `data` null and a populated `filePath`. -/
theorem fetch_result_population_amended_witness :
    (⟨JsonVal.null, some "d/h.geojson", false⟩ : FetchResult).data.isNull = true ∧
    (⟨JsonVal.null, some "d/h.geojson", false⟩ : FetchResult).file_path.isSome
      = true :=
  (fetch_result_population_amended
    (⟨⟨4, 5, []⟩, ⟨fun _ => "h", "d", 5, [], []⟩, 4, ⟨0, 0, 0, 0⟩⟩ :
      MLITHttpClient ℤ)
    0 "e" none "geojson" false [⟨200, JsonVal.null, [1]⟩]
    ⟨JsonVal.null, some "d/h.geojson", false⟩ rfl).2 (by decide)

/-- C10: the JSON hit test in `fetch` is Python's `cached is not None`, so a
response body that parses to JSON null is stored in the in-memory cache but
can never be served as a hit: every json `FetchResult` with
`from_cache = true` carries non-null data, and a non-forced json fetch
against a live cache entry whose stored value is null still takes the miss
path — it increments `cache_misses` and, when it returns, has
`from_cache = false` and issued at least one upstream call. -/
theorem null_json_never_served {τ : Type} [LinearOrderedAddCommGroup τ] :
    (∀ (c : MLITHttpClient τ) (now : τ) (ep : String)
        (p : Option (List (String × PVal))) (rs : List Response) (r : FetchResult),
      (fetch c now ep p "json" false rs).1 = .ok r →
      r.from_cache = true → r.data.isNull = false) ∧
    (∀ (c : MLITHttpClient τ) (now : τ) (ep : String)
        (p : Option (List (String × PVal))) (rs : List Response)
        (entry : MemoryEntry τ JsonVal),
      List.lookup (build_cache_key ep p "json") c.json_cache.store = some entry →
      entry.value.isNull = true → ¬ now ≥ entry.expires_at →
      (fetch c now ep p "json" false rs).2.1.stats.cache_misses
          = c.stats.cache_misses + 1 ∧
      ∀ r, (fetch c now ep p "json" false rs).1 = .ok r →
        r.from_cache = false ∧ 1 ≤ (fetch c now ep p "json" false rs).2.2.1) := by
  have hnf : toLowerAscii "json" = "json" := rfl
  constructor
  · intro c now ep p rs r h hc
    cases ho : ((mget c.json_cache now (build_cache_key ep p "json")).1.getD
      JsonVal.null).isNull with
    | true =>
      rw [fetch_eq_json_misslike c now ep p rs hnf ho] at h
      have hshape := fetchMiss_ok_shape _ now _ _ rs r h
      rw [hshape.1] at hc
      cases hc
    | false =>
      cases hov : (mget c.json_cache now (build_cache_key ep p "json")).1 with
      | none =>
        rw [hov] at ho
        simp [JsonVal.isNull] at ho
      | some v =>
        rw [hov] at ho
        simp only [Option.getD_some] at ho
        rw [fetch_eq_json_hit c now ep p rs hnf hov ho] at h
        injection h with h
        rw [← h]
        exact ho
  · intro c now ep p rs entry hlook hnull hnot
    have hmge := mget_eq_of_lookup_some now hlook
    rw [if_neg hnot] at hmge
    have ho : ((mget c.json_cache now (build_cache_key ep p "json")).1.getD
        JsonVal.null).isNull = true := by
      rw [hmge]
      simpa using hnull
    rw [fetch_eq_json_misslike c now ep p rs hnf ho]
    obtain ⟨h1, h2, h3⟩ := fetchMiss_stats
      { c with
        stats := statsEnter c.stats
        json_cache := (mget c.json_cache now (build_cache_key ep p "json")).2 }
      now (toLowerAscii "json") (build_cache_key ep p "json") rs
    refine ⟨by rw [h3]; rfl, ?_⟩
    intro r h
    exact fetchMiss_ok_shape _ now _ _ rs r h

/-- Witness for C10 over `τ = ℤ`: a cache holding a live `null` entry for the
key still yields a miss — the miss counter goes from 0 to 1. -/
theorem null_json_never_served_witness :
    (fetch
      (⟨⟨4, 5, [(build_cache_key "e" none "json", ⟨JsonVal.null, 10⟩)]⟩,
        ⟨fun _ => "h", "d", 5, [], []⟩, 4, ⟨0, 0, 0, 0⟩⟩ : MLITHttpClient ℤ)
      0 "e" none "json" false [⟨200, JsonVal.null, []⟩]).2.1.stats.cache_misses
      = 0 + 1 :=
  ((null_json_never_served (τ := ℤ)).2
    (⟨⟨4, 5, [(build_cache_key "e" none "json", ⟨JsonVal.null, 10⟩)]⟩,
      ⟨fun _ => "h", "d", 5, [], []⟩, 4, ⟨0, 0, 0, 0⟩⟩ : MLITHttpClient ℤ)
    0 "e" none [⟨200, JsonVal.null, []⟩] ⟨JsonVal.null, 10⟩
    rfl rfl (by decide)).1

theorem diskExists_setAssoc_self (p : String) (v : List Nat)
    (d : List (String × List Nat)) : diskExists p (setAssoc p v d) = true := by
  unfold diskExists
  rw [lookup_setAssoc_self]
  rfl

/-- Counterexample to C8 as stated: a force-refreshed json fetch whose body
parses to JSON null does store the value, but the subsequent non-forced fetch
with identical arguments is NOT served from the cache — it issues one more
upstream call and returns `from_cache = false`. -/
theorem force_refresh_repopulate_counterexample :
    (fetch
      (⟨⟨4, 5, []⟩, ⟨fun _ => "h", "d", 5, [], []⟩, 4, ⟨0, 0, 0, 0⟩⟩ :
        MLITHttpClient ℤ)
      0 "e" none "json" true [⟨200, JsonVal.null, []⟩]).1
      = .ok ⟨JsonVal.null, none, false⟩ ∧
    (fetch
      (fetch
        (⟨⟨4, 5, []⟩, ⟨fun _ => "h", "d", 5, [], []⟩, 4, ⟨0, 0, 0, 0⟩⟩ :
          MLITHttpClient ℤ)
        0 "e" none "json" true [⟨200, JsonVal.null, []⟩]).2.1
      0 "e" none "json" false [⟨200, JsonVal.null, []⟩]).2.2.1 = 1 ∧
    (fetch
      (fetch
        (⟨⟨4, 5, []⟩, ⟨fun _ => "h", "d", 5, [], []⟩, 4, ⟨0, 0, 0, 0⟩⟩ :
          MLITHttpClient ℤ)
        0 "e" none "json" true [⟨200, JsonVal.null, []⟩]).2.1
      0 "e" none "json" false [⟨200, JsonVal.null, []⟩]).1
      = .ok ⟨JsonVal.null, none, false⟩ :=
  ⟨rfl, rfl, rfl⟩

/-- C8 (amended): `force_refresh = true` skips the cache-read step
unconditionally — any returned result has `from_cache = false` and at least
one upstream call was issued, whatever the cache contains — and the freshly
fetched value is stored in the matching tier, so that a subsequent non-forced
fetch with identical endpoint, params and format issued before the entry's
TTL expiry is served from the cache with zero upstream calls; for the json
format this additionally requires the fetched body not to be JSON null (a
null body is stored but can never be served, see the counterexample). -/
theorem force_refresh_amended {τ : Type} [LinearOrderedAddCommGroup τ] :
    (∀ (c : MLITHttpClient τ) (now : τ) (ep : String)
        (p : Option (List (String × PVal))) (fmt : String) (rs : List Response)
        (r : FetchResult),
      (fetch c now ep p fmt true rs).1 = .ok r →
      r.from_cache = false ∧ 1 ≤ (fetch c now ep p fmt true rs).2.2.1) ∧
    (∀ (c : MLITHttpClient τ) (now : τ) (ep : String)
        (p : Option (List (String × PVal))) (rs : List Response)
        (resp : Response) (n : Nat) (rest : List Response),
      sendWithRetry c.max_attempts rs = (.ok resp, n, rest) →
      resp.jsonBody.isNull = false → 1 ≤ c.json_cache.maxsize →
      ∀ (now2 : τ) (rs2 : List Response), now2 < now + c.json_cache.ttl →
        (fetch (fetch c now ep p "json" true rs).2.1
            now2 ep p "json" false rs2).1
          = .ok ⟨resp.jsonBody, none, true⟩ ∧
        (fetch (fetch c now ep p "json" true rs).2.1
            now2 ep p "json" false rs2).2.2.1 = 0) ∧
    (∀ (c : MLITHttpClient τ) (now : τ) (ep : String)
        (p : Option (List (String × PVal))) (fmt : String) (rs : List Response)
        (resp : Response) (n : Nat) (rest : List Response),
      sendWithRetry c.max_attempts rs = (.ok resp, n, rest) →
      ¬ toLowerAscii fmt = "json" →
      ∀ (now2 : τ) (rs2 : List Response), now2 < now + c.file_cache.ttl →
        (fetch (fetch c now ep p fmt true rs).2.1 now2 ep p fmt false rs2).1
          = .ok ⟨JsonVal.null,
              some (fset c.file_cache now (build_cache_key ep p fmt)
                resp.content (suffix_for_format (toLowerAscii fmt))).1, true⟩ ∧
        (fetch (fetch c now ep p fmt true rs).2.1 now2 ep p fmt false rs2).2.2.1
          = 0) := by
  refine ⟨?_, ?_, ?_⟩
  · intro c now ep p fmt rs r h
    rw [fetch_eq_force] at h ⊢
    exact fetchMiss_ok_shape _ now _ _ rs r h
  · intro c now ep p rs resp n rest hs hnn hmax now2 rs2 hlt
    have hnf : toLowerAscii "json" = "json" := rfl
    have hc1 : (fetch c now ep p "json" true rs).2.1
        = { c with
            stats := statsMiss (statsEnter c.stats) false
            json_cache := mset c.json_cache now (build_cache_key ep p "json")
              resp.jsonBody } := by
      rw [fetch_eq_force, fetchMiss_eq_ok_json { c with stats := statsEnter c.stats } now _ rs hs hnf]
    have hlook := mset_lookup_self c.json_cache now
      (build_cache_key ep p "json") resp.jsonBody hmax
    have hmg : (mget (fetch c now ep p "json" true rs).2.1.json_cache now2
        (build_cache_key ep p "json")).1 = some resp.jsonBody := by
      rw [hc1]
      rw [mget_eq_of_lookup_some now2 hlook]
      rw [if_neg (not_le.mpr hlt)]
    rw [fetch_eq_json_hit _ now2 ep p rs2 hnf hmg hnn]
    exact ⟨rfl, rfl⟩
  · intro c now ep p fmt rs resp n rest hs hnf now2 rs2 hlt
    have hc1 : (fetch c now ep p fmt true rs).2.1
        = { c with
            stats := statsMiss (statsEnter c.stats) false
            file_cache := (fset c.file_cache now (build_cache_key ep p fmt)
              resp.content (suffix_for_format (toLowerAscii fmt))).2 } := by
      rw [fetch_eq_force, fetchMiss_eq_ok_file { c with stats := statsEnter c.stats } now _ rs hs hnf]
    have hlook : List.lookup (build_cache_key ep p fmt)
        (fset c.file_cache now (build_cache_key ep p fmt) resp.content
          (suffix_for_format (toLowerAscii fmt))).2.entries
        = some ⟨(fset c.file_cache now (build_cache_key ep p fmt) resp.content
            (suffix_for_format (toLowerAscii fmt))).1, now + c.file_cache.ttl⟩ := by
      unfold fset
      exact lookup_setAssoc_self _ _ _
    have hdisk : diskExists
        (fset c.file_cache now (build_cache_key ep p fmt) resp.content
          (suffix_for_format (toLowerAscii fmt))).1
        (fset c.file_cache now (build_cache_key ep p fmt) resp.content
          (suffix_for_format (toLowerAscii fmt))).2.disk = true := by
      unfold fset
      exact diskExists_setAssoc_self _ _ _
    have hmg : (fget (fetch c now ep p fmt true rs).2.1.file_cache now2
        (build_cache_key ep p fmt)).1
        = some (fset c.file_cache now (build_cache_key ep p fmt) resp.content
            (suffix_for_format (toLowerAscii fmt))).1 := by
      rw [hc1]
      rw [fget_eq_of_lookup_some now2 hlook]
      have hcond : ¬ (now2 ≥ now + c.file_cache.ttl ∨
          ¬ diskExists (fset c.file_cache now (build_cache_key ep p fmt)
              resp.content (suffix_for_format (toLowerAscii fmt))).1
            (fset c.file_cache now (build_cache_key ep p fmt) resp.content
              (suffix_for_format (toLowerAscii fmt))).2.disk = true) := by
        intro hor
        rcases hor with h | h
        · exact not_le.mpr hlt h
        · exact h hdisk
      rw [if_neg hcond]
    rw [fetch_eq_file_hit _ now2 ep p rs2 hnf hmg]
    exact ⟨rfl, rfl⟩

/-- Witness for the amended C8 over `τ = ℤ`: after a force-refreshed json
fetch of a non-null body, the immediate non-forced identical fetch is served
from the cache with zero upstream calls. -/
theorem force_refresh_amended_witness :
    (fetch
      (fetch
        (⟨⟨4, 5, []⟩, ⟨fun _ => "h", "d", 5, [], []⟩, 4, ⟨0, 0, 0, 0⟩⟩ :
          MLITHttpClient ℤ)
        0 "e" none "json" true [⟨200, JsonVal.num 3, []⟩]).2.1
      0 "e" none "json" false []).1 = .ok ⟨JsonVal.num 3, none, true⟩ ∧
    (fetch
      (fetch
        (⟨⟨4, 5, []⟩, ⟨fun _ => "h", "d", 5, [], []⟩, 4, ⟨0, 0, 0, 0⟩⟩ :
          MLITHttpClient ℤ)
        0 "e" none "json" true [⟨200, JsonVal.num 3, []⟩]).2.1
      0 "e" none "json" false []).2.2.1 = 0 :=
  (force_refresh_amended (τ := ℤ)).2.1
    (⟨⟨4, 5, []⟩, ⟨fun _ => "h", "d", 5, [], []⟩, 4, ⟨0, 0, 0, 0⟩⟩ :
      MLITHttpClient ℤ)
    0 "e" none [⟨200, JsonVal.num 3, []⟩] ⟨200, JsonVal.num 3, []⟩ 1 []
    rfl rfl (by decide) 0 [] (by decide)

/- ### Cache-key serializer: decoding and injectivity -/

/-- Value of one lowercase hex digit character. -/
def hexVal (c : Char) : Nat := if c.toNat ≤ 57 then c.toNat - 48 else c.toNat - 87

/-- Value of four hex digit characters, big-endian. -/
def hexVal4 (h1 h2 h3 h4 : Char) : Nat :=
  ((hexVal h1 * 16 + hexVal h2) * 16 + hexVal h3) * 16 + hexVal h4

theorem charOfNat_toNat {n : Nat} (h : Nat.isValidChar n) :
    (Char.ofNat n).toNat = n := by
  unfold Char.ofNat
  rw [dif_pos h]
  rfl

theorem charOfNat_toNat_small {n : Nat} (h : n < 55296) :
    (Char.ofNat n).toNat = n :=
  charOfNat_toNat (Or.inl h)

theorem hexVal_hexChar {n : Nat} (h : n < 16) : hexVal (hexChar n) = n := by
  unfold hexVal hexChar
  by_cases h10 : n < 10
  · rw [if_pos h10, charOfNat_toNat_small (by omega)]
    rw [if_pos (by omega)]
    omega
  · rw [if_neg h10, charOfNat_toNat_small (by omega)]
    rw [if_neg (by omega)]
    omega

theorem hexVal4_hex4 {n : Nat} (h : n < 65536) :
    ∃ h1 h2 h3 h4, hex4 n = [h1, h2, h3, h4] ∧
      hexVal4 h1 h2 h3 h4 = n := by
  refine ⟨_, _, _, _, rfl, ?_⟩
  unfold hexVal4
  rw [hexVal_hexChar (Nat.mod_lt _ (by omega)),
    hexVal_hexChar (Nat.mod_lt _ (by omega)),
    hexVal_hexChar (Nat.mod_lt _ (by omega)),
    hexVal_hexChar (Nat.mod_lt _ (by omega))]
  omega

/-- The single-character backslash escapes recognised by the decoder. -/
def shortEscape (e : Char) : Option Char :=
  if e = '"' then some '"'
  else if e = '\\' then some '\\'
  else if e = 'b' then some (Char.ofNat 8)
  else if e = 't' then some (Char.ofNat 9)
  else if e = 'n' then some (Char.ofNat 10)
  else if e = 'f' then some (Char.ofNat 12)
  else if e = 'r' then some (Char.ofNat 13)
  else none

/-- Surrogate-pair tail: after a high surrogate `\uXXXX` with value `n`, an
immediately following `\uYYYY` low surrogate must appear; `next` decodes the
remaining input. -/
def decodeSurrPair (next : List Char → Option (List Char × List Char))
    (n : Nat) : List Char → Option (List Char × List Char)
  | b2 :: u2 :: g1 :: g2 :: g3 :: g4 :: rest4 =>
    if b2 = '\\' ∧ u2 = 'u' then
      if 56320 ≤ hexVal4 g1 g2 g3 g4 ∧ hexVal4 g1 g2 g3 g4 < 57344 then
        (next rest4).map
          (fun pr => (Char.ofNat (65536 + (n - 55296) * 1024
            + (hexVal4 g1 g2 g3 g4 - 56320)) :: pr.1, pr.2))
      else none
    else none
  | _ => none

/-- Interpret the value of a `\uXXXX` escape: a high surrogate requires a
low-surrogate partner, a lone low surrogate is invalid, anything else decodes
to the corresponding character. -/
def decodeHex (next : List Char → Option (List Char × List Char)) (n : Nat)
    (rest3 : List Char) : Option (List Char × List Char) :=
  if 55296 ≤ n ∧ n < 56320 then decodeSurrPair next n rest3
  else if 56320 ≤ n ∧ n < 57344 then none
  else (next rest3).map (fun pr => (Char.ofNat n :: pr.1, pr.2))

/-- Read the four hex digits of a `\uXXXX` escape. -/
def decodeUHex (next : List Char → Option (List Char × List Char)) :
    List Char → Option (List Char × List Char)
  | h1 :: h2 :: h3 :: h4 :: rest3 => decodeHex next (hexVal4 h1 h2 h3 h4) rest3
  | _ => none

/-- Decode what follows a backslash. -/
def decodeEsc (next : List Char → Option (List Char × List Char)) (e : Char)
    (rest2 : List Char) : Option (List Char × List Char) :=
  if e = 'u' then decodeUHex next rest2
  else
    match shortEscape e with
    | some ch => (next rest2).map (fun pr => (ch :: pr.1, pr.2))
    | none => none

/-- Dispatch on the character after a backslash. -/
def decodeBslash (next : List Char → Option (List Char × List Char)) :
    List Char → Option (List Char × List Char)
  | [] => none
  | e :: rest2 => decodeEsc next e rest2

/-- One decoding step: an unescaped quote ends the string, a backslash starts
an escape, any other character stands for itself. -/
def decodeStep (next : List Char → Option (List Char × List Char)) :
    List Char → Option (List Char × List Char)
  | [] => none
  | c :: rest =>
    if c = '"' then some ([], rest)
    else if c = '\\' then decodeBslash next rest
    else (next rest).map (fun pr => (c :: pr.1, pr.2))

/-- Fuel-driven decoder for the escaped body of a JSON string produced by
`escapeChar`: reads escaped characters until the unescaped closing quote and
returns the decoded characters with the input remaining after the quote.
One unit of fuel is spent per decoded character. -/
def decodeStrBodyF : Nat → List Char → Option (List Char × List Char)
  | 0, _ => none
  | fuel + 1, l => decodeStep (fun l2 => decodeStrBodyF fuel l2) l

/-- The decoder with enough fuel for its input. -/
def decodeStrBody (l : List Char) : Option (List Char × List Char) :=
  decodeStrBodyF (l.length + 1) l

theorem char_toNat_inj {a b : Char} (h : a.toNat = b.toNat) : a = b := by
  apply Char.ext
  apply UInt32.ext
  exact h

theorem char_ofNat_toNat_self (c : Char) : Char.ofNat c.toNat = c :=
  char_toNat_inj (charOfNat_toNat c.valid)

theorem char_ne_of_toNat_ne {c d : Char} (h : c.toNat ≠ d.toNat) : c ≠ d :=
  fun he => h (by rw [he])

theorem escapeChar_u {c : Char}
    (h : (c.toNat < 32 ∧ c.toNat ≠ 8 ∧ c.toNat ≠ 9 ∧ c.toNat ≠ 10 ∧ c.toNat ≠ 12 ∧ c.toNat ≠ 13)
        ∨ (126 < c.toNat ∧ c.toNat ≤ 65535)) :
    escapeChar c = '\\' :: 'u' :: hex4 c.toNat := by
  have hq : c ≠ '"' := char_ne_of_toNat_ne (by rw [show ('"' : Char).toNat = 34 from rfl]; omega)
  have hb : c ≠ '\\' := char_ne_of_toNat_ne (by rw [show ('\\' : Char).toNat = 92 from rfl]; omega)
  simp only [escapeChar]
  rw [if_neg hq, if_neg hb, if_neg (by omega : ¬c.toNat = 8),
    if_neg (by omega : ¬c.toNat = 9), if_neg (by omega : ¬c.toNat = 10),
    if_neg (by omega : ¬c.toNat = 12), if_neg (by omega : ¬c.toNat = 13)]
  rcases h with h | h
  · rw [if_pos h.1]
  · rw [if_neg (by omega : ¬c.toNat < 32), if_neg (by omega : ¬c.toNat ≤ 126),
      if_pos (by omega : c.toNat ≤ 65535)]

theorem escapeChar_self {c : Char}
    (h : 32 ≤ c.toNat ∧ c.toNat ≤ 126 ∧ c.toNat ≠ 34 ∧ c.toNat ≠ 92) :
    escapeChar c = [c] := by
  have hq : c ≠ '"' := char_ne_of_toNat_ne (by rw [show ('"' : Char).toNat = 34 from rfl]; omega)
  have hb : c ≠ '\\' := char_ne_of_toNat_ne (by rw [show ('\\' : Char).toNat = 92 from rfl]; omega)
  simp only [escapeChar]
  rw [if_neg hq, if_neg hb, if_neg (by omega : ¬c.toNat = 8),
    if_neg (by omega : ¬c.toNat = 9), if_neg (by omega : ¬c.toNat = 10),
    if_neg (by omega : ¬c.toNat = 12), if_neg (by omega : ¬c.toNat = 13),
    if_neg (by omega : ¬c.toNat < 32), if_pos (by omega : c.toNat ≤ 126)]

theorem escapeChar_surr {c : Char} (h : 65535 < c.toNat) :
    escapeChar c = '\\' :: 'u' :: (hex4 (55296 + (c.toNat - 65536) / 1024)
      ++ ('\\' :: 'u' :: hex4 (56320 + (c.toNat - 65536) % 1024))) := by
  have hq : c ≠ '"' := char_ne_of_toNat_ne (by rw [show ('"' : Char).toNat = 34 from rfl]; omega)
  have hb : c ≠ '\\' := char_ne_of_toNat_ne (by rw [show ('\\' : Char).toNat = 92 from rfl]; omega)
  simp only [escapeChar]
  rw [if_neg hq, if_neg hb, if_neg (by omega : ¬c.toNat = 8),
    if_neg (by omega : ¬c.toNat = 9), if_neg (by omega : ¬c.toNat = 10),
    if_neg (by omega : ¬c.toNat = 12), if_neg (by omega : ¬c.toNat = 13),
    if_neg (by omega : ¬c.toNat < 32), if_neg (by omega : ¬c.toNat ≤ 126),
    if_neg (by omega : ¬c.toNat ≤ 65535)]
  simp [List.cons_append]

theorem decodeF_u (c : Char) (t : List Char) (k : Nat) (hn : c.toNat < 65536) :
    decodeStrBodyF (k + 1) (('\\' :: 'u' :: hex4 c.toNat) ++ t)
      = (decodeStrBodyF k t).map (fun pr => (c :: pr.1, pr.2)) := by
  have hval : c.toNat < 55296 ∨ (57343 < c.toNat ∧ c.toNat < 1114112) := c.valid
  obtain ⟨h1, h2, h3, h4, hh, hv⟩ := hexVal4_hex4 hn
  rw [hh]
  show decodeHex (fun l2 => decodeStrBodyF k l2) (hexVal4 h1 h2 h3 h4) t
      = (decodeStrBodyF k t).map (fun pr => (c :: pr.1, pr.2))
  rw [hv]
  unfold decodeHex
  rw [if_neg (by omega), if_neg (by omega), char_ofNat_toNat_self]

theorem decodeF_surr (c : Char) (t : List Char) (k : Nat) (hn : 65535 < c.toNat) :
    decodeStrBodyF (k + 1) (('\\' :: 'u' :: (hex4 (55296 + (c.toNat - 65536) / 1024)
      ++ ('\\' :: 'u' :: hex4 (56320 + (c.toNat - 65536) % 1024)))) ++ t)
      = (decodeStrBodyF k t).map (fun pr => (c :: pr.1, pr.2)) := by
  have hval : c.toNat < 55296 ∨ (57343 < c.toNat ∧ c.toNat < 1114112) := c.valid
  have hhi : 55296 + (c.toNat - 65536) / 1024 < 65536 := by omega
  have hlo : 56320 + (c.toNat - 65536) % 1024 < 65536 := by omega
  obtain ⟨a1, a2, a3, a4, hha, hva⟩ := hexVal4_hex4 hhi
  obtain ⟨b1, b2, b3, b4, hhb, hvb⟩ := hexVal4_hex4 hlo
  rw [hha, hhb]
  simp only [List.cons_append, List.append_assoc, List.nil_append]
  show decodeHex (fun l2 => decodeStrBodyF k l2) (hexVal4 a1 a2 a3 a4)
      ('\\' :: 'u' :: b1 :: b2 :: b3 :: b4 :: t)
      = (decodeStrBodyF k t).map (fun pr => (c :: pr.1, pr.2))
  rw [hva]
  unfold decodeHex
  have hhi2 : 55296 ≤ 55296 + (c.toNat - 65536) / 1024
      ∧ 55296 + (c.toNat - 65536) / 1024 < 56320 := by omega
  rw [if_pos hhi2]
  simp only [decodeSurrPair]
  rw [if_pos (show True ∧ True from ⟨trivial, trivial⟩), hvb]
  have hlo2 : 56320 ≤ 56320 + (c.toNat - 65536) % 1024
      ∧ 56320 + (c.toNat - 65536) % 1024 < 57344 := by omega
  rw [if_pos hlo2]
  rw [show 65536 + (55296 + (c.toNat - 65536) / 1024 - 55296) * 1024
      + (56320 + (c.toNat - 65536) % 1024 - 56320) = c.toNat from by omega]
  rw [char_ofNat_toNat_self]

theorem decodeF_step (c : Char) (t : List Char) (k : Nat) :
    decodeStrBodyF (k + 1) (escapeChar c ++ t)
      = (decodeStrBodyF k t).map (fun pr => (c :: pr.1, pr.2)) := by
  by_cases h1 : c = '"'
  · rw [h1]; rfl
  by_cases h2 : c = '\\'
  · rw [h2]; rfl
  have h34 : c.toNat ≠ 34 := fun he => h1 (char_toNat_inj (by rw [he]; rfl))
  have h92 : c.toNat ≠ 92 := fun he => h2 (char_toNat_inj (by rw [he]; rfl))
  by_cases h3 : c.toNat = 8
  · rw [show c = Char.ofNat 8 from char_toNat_inj (by rw [h3, charOfNat_toNat_small (by omega)])]
    rfl
  by_cases h4 : c.toNat = 9
  · rw [show c = Char.ofNat 9 from char_toNat_inj (by rw [h4, charOfNat_toNat_small (by omega)])]
    rfl
  by_cases h5 : c.toNat = 10
  · rw [show c = Char.ofNat 10 from char_toNat_inj (by rw [h5, charOfNat_toNat_small (by omega)])]
    rfl
  by_cases h6 : c.toNat = 12
  · rw [show c = Char.ofNat 12 from char_toNat_inj (by rw [h6, charOfNat_toNat_small (by omega)])]
    rfl
  by_cases h7 : c.toNat = 13
  · rw [show c = Char.ofNat 13 from char_toNat_inj (by rw [h7, charOfNat_toNat_small (by omega)])]
    rfl
  by_cases h8 : c.toNat < 32
  · rw [escapeChar_u (Or.inl ⟨h8, h3, h4, h5, h6, h7⟩)]
    exact decodeF_u c t k (by omega)
  by_cases h9 : c.toNat ≤ 126
  · rw [escapeChar_self ⟨by omega, h9, h34, h92⟩]
    show decodeStep (fun l2 => decodeStrBodyF k l2) (c :: t)
        = (decodeStrBodyF k t).map (fun pr => (c :: pr.1, pr.2))
    simp only [decodeStep]
    rw [if_neg h1, if_neg h2]
  by_cases h10 : c.toNat ≤ 65535
  · rw [escapeChar_u (Or.inr ⟨by omega, h10⟩)]
    exact decodeF_u c t k (by omega)
  · rw [escapeChar_surr (by omega)]
    exact decodeF_surr c t k (by omega)

/-- The characters of `escapeString`, as a function on character lists. -/
def escChars (l : List Char) : List Char := l.foldr (fun c acc => escapeChar c ++ acc) []

theorem decodeF_escChars (l : List Char) : ∀ (k : Nat) (t : List Char),
    decodeStrBodyF (l.length + 1 + k) (escChars l ++ ('"' :: t)) = some (l, t) := by
  induction l with
  | nil =>
    intro k t
    rw [show ([] : List Char).length + 1 + k = k + 1 from by
      simp only [List.length_nil]; omega]
    rfl
  | cons c l ih =>
    intro k t
    rw [show (c :: l).length + 1 + k = (l.length + 1 + k) + 1 from by
      simp only [List.length_cons]; omega]
    rw [show escChars (c :: l) ++ ('"' :: t) = escapeChar c ++ (escChars l ++ ('"' :: t)) from by
      simp [escChars]]
    rw [decodeF_step, ih k t]
    rfl

theorem escapeChar_length_pos (c : Char) : 1 ≤ (escapeChar c).length := by
  simp only [escapeChar]
  repeat' split
  all_goals simp only [hex4, List.length_cons, List.length_append, List.length_nil]
  all_goals omega

theorem escChars_length (l : List Char) : l.length ≤ (escChars l).length := by
  induction l with
  | nil => simp [escChars]
  | cons c l ih =>
    have h1 := escapeChar_length_pos c
    rw [show escChars (c :: l) = escapeChar c ++ escChars l from rfl]
    simp only [List.length_cons, List.length_append]
    omega

theorem decodeStrBody_escChars (l t : List Char) :
    decodeStrBody (escChars l ++ ('"' :: t)) = some (l, t) := by
  unfold decodeStrBody
  rw [show (escChars l ++ ('"' :: t)).length + 1
      = l.length + 1 + ((escChars l).length - l.length + (t.length + 1)) from by
    have := escChars_length l
    simp only [List.length_append, List.length_cons]
    omega]
  exact decodeF_escChars l _ t

/-- Parse one JSON string literal produced by `quoteString`, returning the
decoded string and the remaining input. -/
def parseJString : List Char → Option (String × List Char)
  | c :: rest => if c = '"' then (decodeStrBody rest).map (fun pr => (String.mk pr.1, pr.2)) else none
  | [] => none

theorem parseJString_roundtrip (s : String) (t : List Char) :
    parseJString (quoteString s ++ t) = some (s, t) := by
  show parseJString ('"' :: ((escapeString s ++ ['"']) ++ t)) = some (s, t)
  simp only [parseJString]
  rw [if_pos trivial]
  rw [show (escapeString s ++ ['"']) ++ t = escChars s.data ++ ('"' :: t) from by
    simp [escChars, escapeString, List.append_assoc]]
  rw [decodeStrBody_escChars]
  rfl

/-- Numeric value of a decimal digit character. -/
def digitVal (c : Char) : Nat := c.toNat - 48

/-- Decimal digit test. -/
def isDigit (c : Char) : Bool := decide (48 ≤ c.toNat ∧ c.toNat ≤ 57)

/-- Consume a run of decimal digits, accumulating their value. -/
def parseNatAux : List Char → Nat → Nat × List Char
  | [], acc => (acc, [])
  | c :: rest, acc => if isDigit c then parseNatAux rest (acc * 10 + digitVal c) else (acc, c :: rest)

theorem parseNatAux_digits (ds : List Char) : ∀ (t : List Char) (acc : Nat),
    (∀ c ∈ ds, isDigit c = true) → (∀ d ∈ t.head?, isDigit d = false) →
    parseNatAux (ds ++ t) acc = (ds.foldl (fun a c => a * 10 + digitVal c) acc, t) := by
  induction ds with
  | nil =>
    intro t acc _ ht
    cases t with
    | nil => rfl
    | cons d r =>
      have hd := ht d (by simp)
      show parseNatAux (d :: r) acc = (acc, d :: r)
      simp only [parseNatAux]
      rw [if_neg (by rw [hd]; exact Bool.false_ne_true)]
  | cons c ds ih =>
    intro t acc hds ht
    have hc := hds c (by simp)
    show parseNatAux (c :: (ds ++ t)) acc = _
    simp only [parseNatAux]
    rw [if_pos hc]
    rw [ih t (acc * 10 + digitVal c) (fun x hx => hds x (by simp [hx])) ht]
    simp

theorem natDecCharsAux_digits (fuel : Nat) : ∀ (n : Nat), ∀ c ∈ natDecCharsAux fuel n, isDigit c = true := by
  induction fuel with
  | zero => intro n c hc; exact absurd hc (by simp [natDecCharsAux])
  | succ f ih =>
    intro n c hc
    rw [natDecCharsAux] at hc
    by_cases h0 : n = 0
    · rw [if_pos h0] at hc; exact absurd hc (by simp)
    · rw [if_neg h0] at hc
      rcases List.mem_append.mp hc with h | h
      · exact ih _ c h
      · simp only [List.mem_singleton] at h
        rw [h]
        unfold isDigit
        rw [charOfNat_toNat_small (by omega)]
        exact decide_eq_true (by omega)

theorem natDecCharsAux_val (fuel : Nat) : ∀ (n : Nat), n ≤ fuel → ∀ (acc : Nat),
    (natDecCharsAux fuel n).foldl (fun a c => a * 10 + digitVal c) acc
      = acc * 10 ^ (natDecCharsAux fuel n).length + n := by
  induction fuel with
  | zero =>
    intro n hn acc
    have h0 : n = 0 := Nat.le_zero.mp hn
    subst h0
    simp [natDecCharsAux]
  | succ f ih =>
    intro n hn acc
    by_cases h0 : n = 0
    · subst h0; simp [natDecCharsAux]
    · rw [natDecCharsAux, if_neg h0]
      rw [List.foldl_append]
      rw [ih (n / 10) (by omega) acc]
      simp only [List.foldl_cons, List.foldl_nil, List.length_append, List.length_cons,
        List.length_nil]
      rw [show digitVal (Char.ofNat (48 + n % 10)) = n % 10 from by
        unfold digitVal; rw [charOfNat_toNat_small (by omega)]; omega]
      rw [Nat.zero_add, pow_succ, ← mul_assoc]
      generalize acc * 10 ^ (natDecCharsAux f (n / 10)).length = P
      omega

theorem natDecChars_digits (n : Nat) : ∀ c ∈ natDecChars n, isDigit c = true := by
  intro c hc
  unfold natDecChars at hc
  by_cases h0 : n = 0
  · rw [if_pos h0] at hc
    simp only [List.mem_singleton] at hc
    rw [hc]; decide
  · rw [if_neg h0] at hc
    exact natDecCharsAux_digits n n c hc

theorem natDecChars_val (n : Nat) :
    (natDecChars n).foldl (fun a c => a * 10 + digitVal c) 0 = n := by
  unfold natDecChars
  by_cases h0 : n = 0
  · rw [if_pos h0, h0]; rfl
  · rw [if_neg h0, natDecCharsAux_val n n le_rfl 0]
    simp

theorem natDecChars_ne_nil (n : Nat) : natDecChars n ≠ [] := by
  unfold natDecChars
  by_cases h0 : n = 0
  · rw [if_pos h0]; simp
  · rw [if_neg h0]
    cases n with
    | zero => exact absurd rfl h0
    | succ f =>
      rw [natDecCharsAux, if_neg (by omega)]
      simp

/-- Parse the decimal integer rendering of `intDecChars`. -/
def parseIntFrom : List Char → Option (Int × List Char)
  | [] => none
  | c :: rest =>
    if c = '-' then some (-((parseNatAux rest 0).1 : Int), (parseNatAux rest 0).2)
    else if isDigit c then
      some (((parseNatAux (c :: rest) 0).1 : Int), (parseNatAux (c :: rest) 0).2)
    else none

theorem obind_some {α β : Type} (a : α) (f : α → Option β) : (some a).bind f = f a := rfl

theorem intDecChars_ne_nil (i : Int) : intDecChars i ≠ [] := by
  cases i with
  | ofNat n => exact natDecChars_ne_nil n
  | negSucc m => simp [intDecChars]

theorem intDecChars_head_ne (i : Int) (d : Char) (ds : List Char)
    (h : intDecChars i = d :: ds) : d ≠ '"' := by
  cases i with
  | ofNat n =>
    have hd : isDigit d = true := natDecChars_digits n d (by
      rw [show natDecChars n = d :: ds from h]; simp)
    intro he
    rw [he] at hd
    exact absurd hd (by decide)
  | negSucc m =>
    rw [show intDecChars (Int.negSucc m) = '-' :: natDecChars (m + 1) from rfl] at h
    injection h with h1 h2
    rw [← h1]
    decide

theorem parseIntFrom_roundtrip (i : Int) (t : List Char)
    (ht : ∀ d ∈ t.head?, isDigit d = false) :
    parseIntFrom (intDecChars i ++ t) = some (i, t) := by
  cases i with
  | ofNat n =>
    show parseIntFrom (natDecChars n ++ t) = some ((n : Int), t)
    rcases hne : natDecChars n with _ | ⟨d, ds⟩
    · exact absurd hne (natDecChars_ne_nil n)
    · have hd : isDigit d = true := natDecChars_digits n d (by rw [hne]; simp)
      have hdm : d ≠ '-' := by
        intro he
        rw [he] at hd
        exact absurd hd (by decide)
      rw [List.cons_append]
      simp only [parseIntFrom]
      rw [if_neg hdm, if_pos hd]
      rw [← List.cons_append, ← hne]
      rw [parseNatAux_digits (natDecChars n) t 0 (natDecChars_digits n) ht]
      rw [natDecChars_val]
  | negSucc m =>
    show parseIntFrom ('-' :: (natDecChars (m + 1) ++ t)) = some (Int.negSucc m, t)
    simp only [parseIntFrom]
    rw [if_pos trivial]
    rw [parseNatAux_digits (natDecChars (m + 1)) t 0 (natDecChars_digits (m + 1)) ht]
    rw [natDecChars_val]
    rw [show -((((m : Nat) + 1 : Nat)) : Int) = Int.negSucc m from by
      rw [Int.negSucc_eq]; push_cast; ring]

/-- Parse a `json.dumps` value: a quoted string or a decimal integer. -/
def parsePVal (l : List Char) : Option (PVal × List Char) :=
  match l with
  | [] => none
  | c :: _ =>
    if c = '"' then (parseJString l).map (fun pr => (PVal.str pr.1, pr.2))
    else (parseIntFrom l).map (fun pr => (PVal.int pr.1, pr.2))

theorem parsePVal_roundtrip (v : PVal) (t : List Char)
    (ht : ∀ d ∈ t.head?, isDigit d = false) :
    parsePVal (dumpPVal v ++ t) = some (v, t) := by
  cases v with
  | str s =>
    show parsePVal ('"' :: ((escapeString s ++ ['"']) ++ t)) = some (PVal.str s, t)
    simp only [parsePVal]
    rw [if_pos trivial]
    rw [show ('"' :: ((escapeString s ++ ['"']) ++ t) : List Char) = quoteString s ++ t from by
      simp [quoteString, List.cons_append]]
    rw [parseJString_roundtrip]
    rfl
  | int i =>
    show parsePVal (intDecChars i ++ t) = some (PVal.int i, t)
    rcases hne : intDecChars i with _ | ⟨d, ds⟩
    · exact absurd hne (intDecChars_ne_nil i)
    · have hdq : d ≠ '"' := intDecChars_head_ne i d ds hne
      rw [List.cons_append]
      simp only [parsePVal]
      rw [if_neg hdq]
      rw [← List.cons_append, ← hne]
      rw [parseIntFrom_roundtrip i t ht]
      rfl

/-- Consume one expected character. -/
def expectChar (x : Char) : List Char → Option (List Char)
  | c :: r => if c = x then some r else none
  | [] => none

/-- Parse one `"key":value` item of the params object. -/
def parsePair (l : List Char) : Option ((String × PVal) × List Char) :=
  (parseJString l).bind (fun kr =>
    (expectChar ':' kr.2).bind (fun r2 =>
      (parsePVal r2).map (fun pr => ((kr.1, pr.1), pr.2))))

theorem parsePair_roundtrip (kv : String × PVal) (t : List Char)
    (ht : ∀ d ∈ t.head?, isDigit d = false) :
    parsePair (dumpPair kv ++ t) = some (kv, t) := by
  unfold parsePair
  rw [show dumpPair kv ++ t = quoteString kv.1 ++ (':' :: (dumpPVal kv.2 ++ t)) from by
    simp [dumpPair, List.append_assoc, List.cons_append]]
  rw [parseJString_roundtrip, obind_some]
  show (parsePVal (dumpPVal kv.2 ++ t)).map (fun pr => ((kv.1, pr.1), pr.2)) = some (kv, t)
  rw [parsePVal_roundtrip kv.2 t ht]
  rfl

/-- After one parsed item: a comma continues the object, the closing brace
(left unconsumed) ends it. -/
def parsePairsStep (next : List Char → Option (List (String × PVal) × List Char))
    (kv : String × PVal) : List Char → Option (List (String × PVal) × List Char)
  | c :: r2 =>
    if c = ',' then (next r2).map (fun q => (kv :: q.1, q.2))
    else if c = rbrace then some ([kv], c :: r2)
    else none
  | [] => none

/-- Parse one or more comma-separated `"key":value` items, stopping in front
of the closing brace; fuel bounds the number of items. -/
def parsePairsAux : Nat → List Char → Option (List (String × PVal) × List Char)
  | 0, _ => none
  | fuel + 1, l =>
    (parsePair l).bind (fun pr => parsePairsStep (fun l2 => parsePairsAux fuel l2) pr.1 pr.2)

theorem parsePairsAux_roundtrip (qs : List (String × PVal)) (hqs : qs ≠ []) :
    ∀ (k : Nat) (t : List Char),
    parsePairsAux (qs.length + k) (dumpPairs qs ++ (rbrace :: t)) = some (qs, rbrace :: t) := by
  induction qs with
  | nil => exact absurd rfl hqs
  | cons kv qs ih =>
    intro k t
    cases qs with
    | nil =>
      rw [show ([kv] : List (String × PVal)).length + k = k + 1 from by
        simp only [List.length_cons, List.length_nil]; omega]
      show parsePairsAux (k + 1) (dumpPair kv ++ (rbrace :: t)) = some ([kv], rbrace :: t)
      rw [parsePairsAux]
      rw [parsePair_roundtrip kv (rbrace :: t) (by
        intro d hd; simp only [List.head?_cons, Option.mem_def, Option.some.injEq] at hd
        rw [← hd]; decide)]
      rfl
    | cons kv2 qs2 =>
      rw [show (kv :: kv2 :: qs2).length + k = ((kv2 :: qs2).length + k) + 1 from by
        simp only [List.length_cons]; omega]
      rw [show dumpPairs (kv :: kv2 :: qs2) ++ (rbrace :: t)
          = dumpPair kv ++ (',' :: (dumpPairs (kv2 :: qs2) ++ (rbrace :: t))) from by
        rw [show dumpPairs (kv :: kv2 :: qs2)
            = dumpPair kv ++ (',' :: dumpPairs (kv2 :: qs2)) from rfl]
        simp [List.append_assoc, List.cons_append]]
      rw [parsePairsAux]
      rw [parsePair_roundtrip kv _ (by
        intro d hd; simp only [List.head?_cons, Option.mem_def, Option.some.injEq] at hd
        rw [← hd]; decide)]
      show (parsePairsAux ((kv2 :: qs2).length + k) (dumpPairs (kv2 :: qs2) ++ (rbrace :: t))).map
          (fun q => (kv :: q.1, q.2)) = some (kv :: kv2 :: qs2, rbrace :: t)
      rw [ih (List.cons_ne_nil kv2 qs2) k t]
      rfl

theorem dumpPair_length_pos (kv : String × PVal) : 1 ≤ (dumpPair kv).length := by
  simp only [dumpPair, quoteString, List.length_append, List.length_cons]
  omega

theorem dumpPairs_length (qs : List (String × PVal)) : qs.length ≤ (dumpPairs qs).length := by
  induction qs with
  | nil => simp [dumpPairs]
  | cons kv qs ih =>
    cases qs with
    | nil =>
      simp only [List.length_cons, List.length_nil]
      have := dumpPair_length_pos kv
      rw [show dumpPairs [kv] = dumpPair kv from rfl]
      omega
    | cons kv2 qs2 =>
      rw [show dumpPairs (kv :: kv2 :: qs2)
          = dumpPair kv ++ (',' :: dumpPairs (kv2 :: qs2)) from rfl]
      have h1 := dumpPair_length_pos kv
      simp only [List.length_cons, List.length_append] at ih ⊢
      omega

/-- Body of a params object after the opening brace: either immediately the
closing brace (empty object) or a nonempty item list then the brace. -/
def parseParamsTail : List Char → Option (List (String × PVal) × List Char)
  | c :: r2 =>
    if c = rbrace then some ([], r2)
    else (parsePairsAux ((c :: r2).length + 1) (c :: r2)).bind (fun q =>
      (expectChar rbrace q.2).map (fun r3 => (q.1, r3)))
  | [] => none

/-- Parse a whole `json.dumps` params object. -/
def parseParams (l : List Char) : Option (List (String × PVal) × List Char) :=
  (expectChar lbrace l).bind parseParamsTail

theorem parseParams_roundtrip (l : List (String × PVal)) (t : List Char) :
    parseParams (dumpParams l ++ t) = some (sortByKey l, t) := by
  unfold parseParams
  rw [show dumpParams l ++ t = lbrace :: (dumpPairs (sortByKey l) ++ (rbrace :: t)) from by
    simp [dumpParams, List.cons_append, List.append_assoc]]
  show parseParamsTail (dumpPairs (sortByKey l) ++ (rbrace :: t)) = some (sortByKey l, t)
  cases hq : sortByKey l with
  | nil => rfl
  | cons kv qs =>
    obtain ⟨R, hR⟩ : ∃ R, dumpPairs (kv :: qs) = '"' :: R := by
      cases qs with
      | nil =>
        exact ⟨(escapeString kv.1 ++ ('"' :: ':' :: dumpPVal kv.2)), by
          rw [show dumpPairs [kv] = dumpPair kv from rfl]
          simp [dumpPair, quoteString, List.cons_append, List.append_assoc]⟩
      | cons kv2 qs2 =>
        exact ⟨(escapeString kv.1 ++ ('"' :: ':' :: (dumpPVal kv.2
            ++ (',' :: dumpPairs (kv2 :: qs2))))), by
          rw [show dumpPairs (kv :: kv2 :: qs2)
              = dumpPair kv ++ (',' :: dumpPairs (kv2 :: qs2)) from rfl]
          simp [dumpPair, quoteString, List.cons_append, List.append_assoc]⟩
    rw [hR, List.cons_append]
    rw [parseParamsTail]
    rw [if_neg (by decide : ¬('"' : Char) = rbrace)]
    rw [← List.cons_append, ← hR]
    rw [show (dumpPairs (kv :: qs) ++ (rbrace :: t)).length + 1
        = (kv :: qs).length + ((dumpPairs (kv :: qs) ++ (rbrace :: t)).length + 1
          - (kv :: qs).length) from by
      have hdl := dumpPairs_length (kv :: qs)
      simp only [List.length_append, List.length_cons] at hdl ⊢
      omega]
    rw [parsePairsAux_roundtrip (kv :: qs) (List.cons_ne_nil kv qs) _ t]
    rfl

/-- Consume an expected literal character sequence. -/
def expectChars : List Char → List Char → Option (List Char)
  | [], l => some l
  | x :: xs, l => (expectChar x l).bind (fun r => expectChars xs r)

theorem expectChars_roundtrip (p : List Char) : ∀ t, expectChars p (p ++ t) = some t := by
  induction p with
  | nil => intro t; rfl
  | cons x xs ih =>
    intro t
    show (expectChar x (x :: (xs ++ t))).bind (fun r => expectChars xs r) = some t
    rw [show expectChar x (x :: (xs ++ t)) = some (xs ++ t) from by
      simp only [expectChar]; rw [if_pos trivial]]
    rw [obind_some]
    exact ih t

/-- After the params object only the closing brace of the key object remains. -/
def parseKeyEnd (l : List Char) (out : String × String × List (String × PVal)) :
    Option (String × String × List (String × PVal)) :=
  match l with
  | [c] => if c = rbrace then some out else none
  | _ => none

/-- Parse a whole cache key produced by `build_cache_key`, recovering the
endpoint, the format and the sorted params items. -/
def parseKey (l : List Char) : Option (String × String × List (String × PVal)) :=
  (expectChars (lbrace :: (quoteString "endpoint" ++ [':'])) l).bind (fun r1 =>
    (parseJString r1).bind (fun er =>
      (expectChars (',' :: (quoteString "format" ++ [':'])) er.2).bind (fun r2 =>
        (parseJString r2).bind (fun fr =>
          (expectChars (',' :: (quoteString "params" ++ [':'])) fr.2).bind (fun r3 =>
            (parseParams r3).bind (fun pr =>
              parseKeyEnd pr.2 (er.1, fr.1, pr.1)))))))

theorem parseKey_build (e : String) (p : Option (List (String × PVal))) (f : String) :
    parseKey (build_cache_key e p f).data = some (e, f, sortByKey (p.getD [])) := by
  show parseKey (lbrace :: (quoteString "endpoint" ++ (':' :: quoteString e)
      ++ (',' :: (quoteString "format" ++ (':' :: quoteString f)))
      ++ (',' :: (quoteString "params" ++ (':' :: dumpParams (p.getD []))))
      ++ [rbrace])) = some (e, f, sortByKey (p.getD []))
  unfold parseKey
  rw [show (lbrace :: (quoteString "endpoint" ++ (':' :: quoteString e)
      ++ (',' :: (quoteString "format" ++ (':' :: quoteString f)))
      ++ (',' :: (quoteString "params" ++ (':' :: dumpParams (p.getD []))))
      ++ [rbrace]))
      = (lbrace :: (quoteString "endpoint" ++ [':']))
        ++ (quoteString e ++ ((',' :: (quoteString "format" ++ [':']))
        ++ (quoteString f ++ ((',' :: (quoteString "params" ++ [':']))
        ++ (dumpParams (p.getD []) ++ [rbrace]))))) from by
    simp [List.cons_append, List.append_assoc]]
  rw [expectChars_roundtrip, obind_some]
  rw [parseJString_roundtrip, obind_some]
  show (expectChars (',' :: (quoteString "format" ++ [':']))
      ((',' :: (quoteString "format" ++ [':'])) ++ (quoteString f
        ++ ((',' :: (quoteString "params" ++ [':']))
          ++ (dumpParams (p.getD []) ++ [rbrace]))))).bind _ = _
  rw [expectChars_roundtrip, obind_some]
  rw [parseJString_roundtrip, obind_some]
  show (expectChars (',' :: (quoteString "params" ++ [':']))
      ((',' :: (quoteString "params" ++ [':'])) ++ (dumpParams (p.getD []) ++ [rbrace]))).bind _ = _
  rw [expectChars_roundtrip, obind_some]
  rw [parseParams_roundtrip, obind_some]
  rfl

theorem insertByKey_perm {β : Type} (x : String × β) (l : List (String × β)) :
    (insertByKey x l).Perm (x :: l) := by
  induction l with
  | nil => exact List.Perm.refl _
  | cons y t ih =>
    unfold insertByKey
    by_cases h : x.1 < y.1
    · rw [if_pos h]
    · rw [if_neg h]
      exact (ih.cons y).trans (List.Perm.swap x y t)

theorem sortByKey_perm {β : Type} (l : List (String × β)) : (sortByKey l).Perm l := by
  induction l with
  | nil => exact List.Perm.refl _
  | cons x t ih =>
    show (insertByKey x (sortByKey t)).Perm (x :: t)
    exact (insertByKey_perm x (sortByKey t)).trans (ih.cons x)

theorem insertByKey_sorted {β : Type} (x : String × β) (l : List (String × β))
    (h : l.Sorted (fun a b => a.1 ≤ b.1)) :
    (insertByKey x l).Sorted (fun a b => a.1 ≤ b.1) := by
  induction l with
  | nil => simp [insertByKey]
  | cons y t ih =>
    unfold insertByKey
    have hy := (List.pairwise_cons.mp h).1
    have ht := (List.pairwise_cons.mp h).2
    by_cases hlt : x.1 < y.1
    · rw [if_pos hlt]
      refine List.Pairwise.cons ?_ h
      intro b hb
      rcases List.mem_cons.mp hb with hbx | hbt
      · rw [hbx]; exact le_of_lt hlt
      · exact le_trans (le_of_lt hlt) (hy b hbt)
    · rw [if_neg hlt]
      refine List.Pairwise.cons ?_ (ih ht)
      intro b hb
      have hb2 : b ∈ x :: t := (insertByKey_perm x t).mem_iff.mp hb
      rcases List.mem_cons.mp hb2 with hbx | hbt
      · rw [hbx]; exact le_of_not_lt hlt
      · exact hy b hbt

theorem sortByKey_sorted {β : Type} (l : List (String × β)) :
    (sortByKey l).Sorted (fun a b => a.1 ≤ b.1) := by
  induction l with
  | nil => simp [sortByKey]
  | cons x t ih => exact insertByKey_sorted x (sortByKey t) ih

theorem sortByKey_sorted_lt {β : Type} (l : List (String × β))
    (h : (l.map Prod.fst).Nodup) :
    (sortByKey l).Sorted (fun a b => a.1 < b.1) := by
  have hs := sortByKey_sorted l
  have hnd : ((sortByKey l).map Prod.fst).Nodup :=
    ((sortByKey_perm l).map Prod.fst).nodup_iff.mpr h
  have hne : (sortByKey l).Pairwise (fun a b => a.1 ≠ b.1) := List.pairwise_map.mp hnd
  exact (List.Pairwise.and hs hne).imp (fun hab => lt_of_le_of_ne hab.1 hab.2)

theorem sortByKey_eq_of_perm {β : Type} {p1 p2 : List (String × β)}
    (hp : p1.Perm p2) (hnd : (p1.map Prod.fst).Nodup) :
    sortByKey p1 = sortByKey p2 := by
  have hnd2 : (p2.map Prod.fst).Nodup := ((hp.map Prod.fst).nodup_iff).mp hnd
  have hperm : (sortByKey p1).Perm (sortByKey p2) :=
    (sortByKey_perm p1).trans (hp.trans (sortByKey_perm p2).symm)
  haveI : IsAntisymm (String × β) (fun a b => a.1 < b.1) :=
    ⟨fun a b hab hba => absurd hba (lt_asymm hab)⟩
  exact List.eq_of_perm_of_sorted hperm (sortByKey_sorted_lt p1 hnd) (sortByKey_sorted_lt p2 hnd2)

/-- C5: the cache key built by `_build_cache_key` is a deterministic function of
the endpoint, the params treated as an unordered map (with absent params equal
to the empty map), and the response format: (1) reordering the insertion order
of a duplicate-free params map leaves the key unchanged; (2) absent params give
the same key as the empty map; (3) conversely, equal keys force equal endpoint,
equal format, and the same multiset of key/value params items, so any
difference in endpoint, params map, or format produces a different key. -/
theorem cache_key_deterministic :
    (∀ (e f : String) (p1 p2 : List (String × PVal)), p1.Perm p2 →
        (p1.map Prod.fst).Nodup →
        build_cache_key e (some p1) f = build_cache_key e (some p2) f)
    ∧ (∀ (e f : String), build_cache_key e none f = build_cache_key e (some []) f)
    ∧ (∀ (e1 e2 f1 f2 : String) (p1 p2 : Option (List (String × PVal))),
        build_cache_key e1 p1 f1 = build_cache_key e2 p2 f2 →
        e1 = e2 ∧ f1 = f2 ∧ (p1.getD []).Perm (p2.getD [])) := by
  refine ⟨?_, ?_, ?_⟩
  · intro e f p1 p2 hp hnd
    simp only [build_cache_key, dumpParams, Option.getD_some]
    rw [sortByKey_eq_of_perm hp hnd]
  · intro e f
    rfl
  · intro e1 e2 f1 f2 p1 p2 h
    have h1 := congrArg (fun s => parseKey s.data) h
    simp only [parseKey_build] at h1
    simp only [Option.some.injEq, Prod.mk.injEq] at h1
    refine ⟨h1.1, h1.2.1, ?_⟩
    have hS : sortByKey (p1.getD []) = sortByKey (p2.getD []) := h1.2.2
    exact (sortByKey_perm (p1.getD [])).symm.trans
      (hS ▸ sortByKey_perm (p2.getD []) : (sortByKey (p1.getD [])).Perm (p2.getD []))

/-- Witness for C5 at concrete inputs: swapping two params of `XIT001` keeps
the key, absent params equal the empty map, and an equal pair of keys yields
equal components. -/
theorem cache_key_deterministic_witness :
    build_cache_key "XIT001" (some [("pref", PVal.str "13"), ("area", PVal.int 2)]) "json"
      = build_cache_key "XIT001" (some [("area", PVal.int 2), ("pref", PVal.str "13")]) "json"
    ∧ build_cache_key "XIT001" none "json" = build_cache_key "XIT001" (some []) "json"
    ∧ ("e1" = "e1" ∧ "json" = "json"
        ∧ ((some [("a", PVal.int 1)] : Option (List (String × PVal))).getD []).Perm
          ((some [("a", PVal.int 1)] : Option (List (String × PVal))).getD [])) :=
  ⟨cache_key_deterministic.1 "XIT001" "json" _ _ (List.Perm.swap _ _ _) (by decide),
   cache_key_deterministic.2.1 "XIT001" "json",
   cache_key_deterministic.2.2 "e1" "e1" "json" "json" _ _ rfl⟩
